import Mathlib

/-!
Shallow embedding of the reconciliation engine in `src/indexer/load.js`
(the `indexer.import` pipeline and its helpers), together with theorems
settling the frozen claims about it.

Conventions of the embedding:
* JS strings that may be `undefined` are modelled as `Option String`
  (`none` = `undefined`); JS truthiness of such a value is `jtruthy`.
* JS plain objects used as string-keyed dictionaries are modelled as
  insertion-ordered association lists (`lookupA`, `setA`, `eraseA`);
  `setA` replaces the first binding in place or appends a fresh one,
  matching JS property update/insertion order.
* External collaborators (network fetch + hash for favicons, `scrapbook.
  urlToFilename`, the content hash used by the diff pass) are parameters
  of the corresponding definitions, as they live outside this source file.
* The current time is a natural number parameter `now`; `dateToId`
  renders it as the decimal digit string the source derives from the
  clock (the exact calendar formatting of the source is irrelevant to the
  claims; what matters is that distinct times give distinct digit-only
  identifiers, which holds for the real format as well).
-/

set_option linter.unusedSectionVars false
set_option linter.unusedVariables false

namespace WSB

/-- JS truthiness for a possibly-`undefined` string: `undefined` and the
empty string are falsy. -/
def jtruthy : Option String → Bool
  | none => false
  | some s => !(s == "")

/-- JS `a || b` on possibly-`undefined` strings. -/
def jor (a b : Option String) : Option String :=
  if jtruthy a then a else b

@[simp] theorem jtruthy_none : jtruthy none = false := rfl

@[simp] theorem jtruthy_some (s : String) : jtruthy (some s) = !(s == "") := rfl

@[simp] theorem jor_none (b : Option String) : jor none b = b := by
  simp [jor, jtruthy]

theorem jor_of_truthy {a : Option String} (h : jtruthy a) (b : Option String) :
    jor a b = a := by
  simp [jor, h]

theorem jor_of_falsy {a : Option String} (h : jtruthy a = false) (b : Option String) :
    jor a b = b := by
  simp [jor, h]

/-- JS `string.split(sep)` for a single-character separator, over the
character list (splits at every occurrence; `""` yields `[""]`). -/
def splitEvery (sep : Char) : List Char → List Char → List String
  | [], cur => [cur.reverse.asString]
  | c :: rest, cur =>
    if c = sep then cur.reverse.asString :: splitEvery sep rest []
    else splitEvery sep rest (c :: cur)

/-- JS `string.split(sep)` on a string. -/
def jsSplit (sep : Char) (s : String) : List String :=
  splitEvery sep s.toList []

/-- JS `string.indexOf(c) !== -1`. -/
def jsHasChar (c : Char) (s : String) : Bool :=
  s.toList.contains c

/-- JS `string.startsWith(pre)`. -/
def jsStartsWith (s pre : String) : Bool :=
  s.toList.take pre.toList.length == pre.toList

/-- UTF-16-style lexicographic string order used by JS comparisons. -/
def charListLe : List Char → List Char → Bool
  | [], _ => true
  | _ :: _, [] => false
  | a :: as, b :: bs =>
    if a.toNat < b.toNat then true
    else if b.toNat < a.toNat then false
    else charListLe as bs

/-- JS string `<=` (via the comparator protocol of `Array.sort`). -/
def strLe (a b : String) : Bool :=
  charListLe a.toList b.toList

/-- Insertion of `Array.prototype.sort` modelling: ordered insert. -/
def orderedInsertJS {α : Type} (le : α → α → Bool) (a : α) : List α → List α
  | [] => [a]
  | b :: l => if le a b then a :: b :: l else b :: orderedInsertJS le a l

/-- A stable sort modelling `Array.prototype.sort` with a comparator. -/
def insertionSortJS {α : Type} (le : α → α → Bool) : List α → List α
  | [] => []
  | a :: l => orderedInsertJS le a (insertionSortJS le l)

theorem orderedInsertJS_perm {α : Type} (le : α → α → Bool) (a : α) (l : List α) :
    (orderedInsertJS le a l).Perm (a :: l) := by
  induction l with
  | nil => simp [orderedInsertJS]
  | cons b tl ih =>
    by_cases h : le a b
    · simp [orderedInsertJS, h]
    · simp only [orderedInsertJS, if_neg h]
      exact (ih.cons b).trans (List.Perm.swap a b tl)

theorem insertionSortJS_perm {α : Type} (le : α → α → Bool) (l : List α) :
    (insertionSortJS le l).Perm l := by
  induction l with
  | nil => simp [insertionSortJS]
  | cons a tl ih =>
    exact (orderedInsertJS_perm le a (insertionSortJS le tl)).trans (ih.cons a)

section AssocList

variable {κ : Type} {β : Type} [DecidableEq κ]

/-- Lookup of a JS object property: first binding for the key. -/
def lookupA : List (κ × β) → κ → Option β
  | [], _ => none
  | (k, v) :: rest, key => if k = key then some v else lookupA rest key

/-- JS `obj[key]` existence test. -/
def containsA (m : List (κ × β)) (k : κ) : Bool :=
  (lookupA m k).isSome

/-- JS property assignment: replace the first binding in place, or append. -/
def setA : List (κ × β) → κ → β → List (κ × β)
  | [], k, v => [(k, v)]
  | (k', v') :: rest, k, v =>
    if k' = k then (k, v) :: rest else (k', v') :: setA rest k v

/-- JS `delete obj[key]`: remove the first binding. -/
def eraseA : List (κ × β) → κ → List (κ × β)
  | [], _ => []
  | (k', v') :: rest, k => if k' = k then rest else (k', v') :: eraseA rest k

/-- Key list (JS own-property enumeration order). -/
def keysA (m : List (κ × β)) : List κ :=
  m.map Prod.fst

@[simp] theorem lookupA_nil (k : κ) : lookupA ([] : List (κ × β)) k = none := rfl

@[simp] theorem lookupA_cons (k' : κ) (v' : β) (rest : List (κ × β)) (k : κ) :
    lookupA ((k', v') :: rest) k = if k' = k then some v' else lookupA rest k := rfl

@[simp] theorem keysA_nil : keysA ([] : List (κ × β)) = [] := rfl

@[simp] theorem keysA_cons (k : κ) (v : β) (rest : List (κ × β)) :
    keysA ((k, v) :: rest) = k :: keysA rest := rfl

theorem lookupA_isSome_iff_mem_keysA (m : List (κ × β)) (k : κ) :
    (lookupA m k).isSome = true ↔ k ∈ keysA m := by
  induction m with
  | nil => simp
  | cons hd tl ih =>
    obtain ⟨k', v'⟩ := hd
    by_cases h : k' = k
    · simp [h]
    · simp only [lookupA_cons, if_neg h, keysA_cons, List.mem_cons]
      rw [ih]
      constructor
      · exact Or.inr
      · rintro (rfl | hm)
        · exact absurd rfl h
        · exact hm

theorem containsA_iff_mem_keysA (m : List (κ × β)) (k : κ) :
    containsA m k = true ↔ k ∈ keysA m := by
  simpa [containsA] using lookupA_isSome_iff_mem_keysA m k

theorem lookupA_setA_self (m : List (κ × β)) (k : κ) (v : β) :
    lookupA (setA m k v) k = some v := by
  induction m with
  | nil => simp [setA]
  | cons hd tl ih =>
    obtain ⟨k', v'⟩ := hd
    by_cases h : k' = k <;> simp [setA, h, ih]

theorem lookupA_setA_ne (m : List (κ × β)) (k k' : κ) (v : β) (h : k ≠ k') :
    lookupA (setA m k v) k' = lookupA m k' := by
  induction m with
  | nil => simp [setA, h]
  | cons hd tl ih =>
    obtain ⟨ka, va⟩ := hd
    by_cases hk : ka = k
    · subst hk; simp [setA, h]
    · simp only [setA, if_neg hk]
      by_cases hk' : ka = k' <;> simp [hk', ih]

theorem lookupA_eraseA_ne (m : List (κ × β)) (k k' : κ) (h : k ≠ k') :
    lookupA (eraseA m k) k' = lookupA m k' := by
  induction m with
  | nil => simp [eraseA]
  | cons hd tl ih =>
    obtain ⟨ka, va⟩ := hd
    by_cases hk : ka = k
    · subst hk; simp [eraseA, h]
    · simp only [eraseA, if_neg hk]
      by_cases hk' : ka = k' <;> simp [hk', ih]

theorem lookupA_eraseA_self (m : List (κ × β)) (k : κ)
    (hnd : (keysA m).Nodup) : lookupA (eraseA m k) k = none := by
  induction m with
  | nil => simp [eraseA]
  | cons hd tl ih =>
    obtain ⟨ka, va⟩ := hd
    simp only [keysA_cons, List.nodup_cons] at hnd
    by_cases hk : ka = k
    · subst hk
      simp only [eraseA, if_pos rfl]
      rcases h : lookupA tl ka with _ | v
      · exact h
      · exact absurd ((lookupA_isSome_iff_mem_keysA tl ka).1 (by simp [h])) hnd.1
    · simp [eraseA, hk, ih hnd.2]

theorem keysA_setA_of_not_mem (m : List (κ × β)) (k : κ) (v : β)
    (h : k ∉ keysA m) : keysA (setA m k v) = keysA m ++ [k] := by
  induction m with
  | nil => simp [setA]
  | cons hd tl ih =>
    obtain ⟨ka, va⟩ := hd
    simp only [keysA_cons, List.mem_cons, not_or] at h
    simp [setA, Ne.symm h.1, ih h.2]

theorem keysA_setA_of_mem (m : List (κ × β)) (k : κ) (v : β)
    (h : k ∈ keysA m) : keysA (setA m k v) = keysA m := by
  induction m with
  | nil => simp at h
  | cons hd tl ih =>
    obtain ⟨ka, va⟩ := hd
    by_cases hk : ka = k
    · simp [setA, hk]
    · simp only [keysA_cons, List.mem_cons] at h
      rcases h with h | h

      · exact absurd h.symm hk
      · simp [setA, hk, ih h]

theorem nodup_keysA_setA (m : List (κ × β)) (k : κ) (v : β)
    (hnd : (keysA m).Nodup) : (keysA (setA m k v)).Nodup := by
  by_cases h : k ∈ keysA m
  · rw [keysA_setA_of_mem m k v h]; exact hnd
  · rw [keysA_setA_of_not_mem m k v h]
    simpa [List.nodup_append] using ⟨hnd, h⟩

theorem keysA_eraseA_sublist (m : List (κ × β)) (k : κ) :
    (keysA (eraseA m k)).Sublist (keysA m) := by
  induction m with
  | nil => simp [eraseA]
  | cons hd tl ih =>
    obtain ⟨ka, va⟩ := hd
    by_cases hk : ka = k
    · simp only [eraseA, if_pos hk, keysA_cons]
      exact List.sublist_cons_self _ _
    · simpa [eraseA, hk] using ih.cons₂ ka

theorem nodup_keysA_eraseA (m : List (κ × β)) (k : κ)
    (hnd : (keysA m).Nodup) : (keysA (eraseA m k)).Nodup :=
  (keysA_eraseA_sublist m k).nodup hnd

theorem lookupA_eq_some_of_mem (m : List (κ × β)) (k : κ) (v : β)
    (hnd : (keysA m).Nodup) (hm : (k, v) ∈ m) : lookupA m k = some v := by
  induction m with
  | nil => simp at hm
  | cons hd tl ih =>
    obtain ⟨ka, va⟩ := hd
    simp only [keysA_cons, List.nodup_cons] at hnd
    rcases List.mem_cons.1 hm with h | h
    · injection h with h1 h2
      subst h1; subst h2
      simp
    · have hne : ka ≠ k := by
        rintro rfl
        exact hnd.1 (by simpa [keysA] using List.mem_map_of_mem Prod.fst h)
      simp [hne, ih hnd.2 h]

theorem mem_of_lookupA_eq_some (m : List (κ × β)) (k : κ) (v : β)
    (h : lookupA m k = some v) : (k, v) ∈ m := by
  induction m with
  | nil => simp at h
  | cons hd tl ih =>
    obtain ⟨ka, va⟩ := hd
    by_cases hk : ka = k
    · subst hk
      rw [lookupA_cons, if_pos rfl] at h
      injection h with h1
      subst h1
      exact List.mem_cons_self _ _
    · simp only [lookupA_cons, if_neg hk] at h
      exact List.mem_cons_of_mem _ (ih h)

end AssocList

/-! ### Timestamp identifiers (`scrapbook.dateToId`) and `indexer.getUniqueId`

The source renders the clock value as a sortable digit string
(`scrapbook.dateToId`) and derives fresh item identifiers from it by
incrementing the time value until the identifier is unused
(`indexer.getUniqueId` round-trips through `scrapbook.idToDate`).  The
embedding works on the numeric time value directly and renders it as its
decimal digit string; all that the claims use is that distinct time
values give distinct digit-only identifiers, which the real calendar
format shares. -/

/-- The digit string of a time value (model of `scrapbook.dateToId`). -/
def dateToId (t : Nat) : String :=
  ((Nat.digits 10 t).reverse.map (fun d => Char.ofNat (d + 48))).asString

theorem char_digit_toNat (d : Nat) (hd : d < 10) :
    (Char.ofNat (d + 48)).toNat = d + 48 := by
  have hv : (d + 48).isValidChar := Or.inl (by omega)
  rw [Char.ofNat, dif_pos hv]
  simp [Char.ofNatAux, Char.toNat, UInt32.toNat, UInt32.ofNatTruncate]

theorem dateToId_injective : Function.Injective dateToId := by
  intro a b hab
  have h : ∀ t : Nat,
      ((dateToId t).toList.map (fun c => c.toNat - 48)).reverse = Nat.digits 10 t := by
    intro t
    rw [dateToId, List.toList_asString, List.map_map]
    rw [List.map_congr_left (g := id) ?hcongr]
    · simp
    · intro d hd
      have hd10 : d < 10 := Nat.digits_lt_base (by norm_num) (List.mem_reverse.1 hd)
      simp [Function.comp, char_digit_toNat d hd10]
  have := (h a).symm.trans (congrArg (fun s => (s.toList.map (fun c => c.toNat - 48)).reverse) hab) |>.trans (h b)
  have := Nat.digits.injective 10 this
  exact this

theorem dateToId_char_le (t : Nat) (c : Char) (hc : c ∈ (dateToId t).toList) :
    c.toNat ≤ 57 := by
  rw [dateToId, List.toList_asString] at hc
  obtain ⟨d, hd, rfl⟩ := List.mem_map.1 hc
  have hd10 : d < 10 := Nat.digits_lt_base (by norm_num) (List.mem_reverse.1 hd)
  rw [char_digit_toNat d hd10]
  omega

theorem dateToId_ne_root (t : Nat) : dateToId t ≠ "root" := by
  intro h
  have : ('r' : Char) ∈ (dateToId t).toList := by
    rw [h]; decide
  have := dateToId_char_le t 'r' this
  simp [Char.toNat] at this
  exact absurd this (by decide)

theorem dateToId_ne_hidden (t : Nat) : dateToId t ≠ "hidden" := by
  intro h
  have : ('h' : Char) ∈ (dateToId t).toList := by
    rw [h]; decide
  have := dateToId_char_le t 'h' this
  simp [Char.toNat] at this
  exact absurd this (by decide)

/-! ### The metadata record (`indexer.getDefaultMeta` and transient fields) -/

/-- One metadata entry.  Fields the source keeps on the record; `none` is
the `undefined` of JS.  `id`, `folder` and `exported` are the transient
reconciliation-only fields.  (Fields the claims never touch — `charset`,
`locked`, `marked` — are omitted.) -/
structure MetaRec where
  id : Option String := none
  index : Option String := none
  title : Option String := none
  type : Option String := none
  create : Option String := none
  modify : Option String := none
  source : Option String := none
  icon : Option String := none
  comment : Option String := none
  folder : Option String := none
  exported : Option String := none
deriving DecidableEq, Repr

/-- `indexer.getDefaultMeta`: every field `undefined`. -/
def getDefaultMeta : MetaRec := {}

/-- The metadata mapping `scrapbookData.meta`. -/
def Metas := List (String × MetaRec)

instance : DecidableEq Metas := by
  unfold Metas
  infer_instance

/-- `indexer.getUniqueId` search loop: starting at time value `v`, return
the first identifier not used in `metas`.  The source loops
`v += 1; id = dateToId(d)` while `metas[id]` exists; the fuel argument
makes the recursion structural, and `getUniqueId` supplies enough fuel
for the search to succeed (`metas.length + 1` candidates cannot all be
keys of `metas`). -/
def getUniqueIdFrom (metas : List (String × MetaRec)) : Nat → Nat → String
  | 0, v => dateToId v
  | fuel + 1, v =>
    if containsA metas (dateToId v) then getUniqueIdFrom metas fuel (v + 1)
    else dateToId v

/-- `indexer.getUniqueId`, entered with the current time value `t`. -/
def getUniqueId (t : Nat) (metas : List (String × MetaRec)) : String :=
  getUniqueIdFrom metas (metas.length + 1) t

theorem length_filter_map_succ (P : Nat → Bool) (l : List Nat) :
    ((l.map Nat.succ).filter P).length = (l.filter (fun j => P (j + 1))).length := by
  induction l with
  | nil => rfl
  | cons a tl ih =>
    by_cases h : P (a + 1) <;>
      simp [List.filter, h, Nat.succ_eq_add_one, ih]

theorem getUniqueIdFrom_not_mem (metas : List (String × MetaRec)) :
    ∀ fuel t : Nat,
      ((List.range fuel).filter
        (fun j => containsA metas (dateToId (t + j)))).length < fuel →
      containsA metas (getUniqueIdFrom metas fuel t) = false := by
  intro fuel
  induction fuel with
  | zero =>
    intro t h
    simp at h
  | succ n ih =>
    intro t h
    by_cases hc : containsA metas (dateToId t)
    · rw [getUniqueIdFrom, if_pos hc]
      apply ih (t + 1)
      rw [List.range_succ_eq_map, List.filter_cons] at h
      have h0 : containsA metas (dateToId (t + 0)) = true := by simpa using hc
      rw [if_pos (by simpa using h0)] at h
      simp only [List.length_cons] at h
      rw [length_filter_map_succ] at h
      have hpred : (fun j => containsA metas (dateToId (t + (j + 1)))) =
          (fun j => containsA metas (dateToId (t + 1 + j))) := by
        funext j
        rw [show t + (j + 1) = t + 1 + j by omega]
      rw [hpred] at h
      omega
    · rw [getUniqueIdFrom, if_neg hc]
      exact Bool.eq_false_iff.2 hc

theorem count_mem_keys_lt (metas : List (String × MetaRec)) (t : Nat) :
    ((List.range (metas.length + 1)).filter
      (fun j => containsA metas (dateToId (t + j)))).length < metas.length + 1 := by
  set f : Nat → String := fun j => dateToId (t + j) with hf
  set L := (List.range (metas.length + 1)).filter
    (fun j => containsA metas (dateToId (t + j))) with hL
  have hnd : L.Nodup := (List.nodup_range _).filter _
  have hinj : Function.Injective f := by
    intro a b hab
    have := dateToId_injective hab
    omega
  have hmap_nd : (L.map f).Nodup := hnd.map hinj
  have hsub : ∀ s ∈ L.map f, s ∈ keysA metas := by
    intro s hs
    obtain ⟨j, hj, rfl⟩ := List.mem_map.1 hs
    exact (containsA_iff_mem_keysA _ _).1 (List.mem_filter.1 hj).2
  have h1 : (L.map f).length ≤ (keysA metas).length := by
    calc (L.map f).length = (L.map f).toFinset.card :=
        (List.toFinset_card_of_nodup hmap_nd).symm
      _ ≤ (keysA metas).toFinset.card :=
        Finset.card_le_card
          (fun s hs => List.mem_toFinset.2 (hsub s (List.mem_toFinset.1 hs)))
      _ ≤ (keysA metas).length := (keysA metas).toFinset_card_le
  have h2 : L.length ≤ metas.length := by
    simpa [keysA] using h1
  omega

/-- Freshness: the identifier `getUniqueId` returns is unused in the map. -/
theorem getUniqueId_fresh (t : Nat) (metas : List (String × MetaRec)) :
    containsA metas (getUniqueId t metas) = false :=
  getUniqueIdFrom_not_mem metas (metas.length + 1) t (count_mem_keys_lt metas t)

theorem getUniqueIdFrom_shape (metas : List (String × MetaRec)) :
    ∀ fuel t : Nat, ∃ v, getUniqueIdFrom metas fuel t = dateToId v := by
  intro fuel
  induction fuel with
  | zero => intro t; exact ⟨t, rfl⟩
  | succ n ih =>
    intro t
    by_cases hc : containsA metas (dateToId t)
    · rw [getUniqueIdFrom, if_pos hc]; exact ih (t + 1)
    · rw [getUniqueIdFrom, if_neg hc]; exact ⟨t, rfl⟩

theorem getUniqueId_ne_root (t : Nat) (metas : List (String × MetaRec)) :
    getUniqueId t metas ≠ "root" := by
  obtain ⟨v, hv⟩ := getUniqueIdFrom_shape metas (metas.length + 1) t
  rw [getUniqueId, hv]
  exact dateToId_ne_root v

theorem getUniqueId_ne_hidden (t : Nat) (metas : List (String × MetaRec)) :
    getUniqueId t metas ≠ "hidden" := by
  obtain ⟨v, hv⟩ := getUniqueIdFrom_shape metas (metas.length + 1) t
  rw [getUniqueId, hv]
  exact dateToId_ne_hidden v

/-- The metadata record of a synthesized folder (`type` folder, the
given title, `create` set to the folder identifier). -/
def folderMeta (title folderId : String) : MetaRec :=
  { type := some "folder", title := some title, create := some folderId }

/-- `indexer.generateFolder`: synthesize a folder entry with a fresh
identifier; returns the identifier and the extended metadata map. -/
def generateFolder (now : Nat) (title : String) (metas : List (String × MetaRec)) :
    String × List (String × MetaRec) :=
  let folderId := getUniqueId now metas
  (folderId, setA metas folderId (folderMeta title folderId))

/-! ### `indexer.getIndexPath` -/

/-- The per-item file set `dataDirs[id]`: the relative paths present for
the item (only existence of a path is consulted by the modelled passes). -/
def ItemFiles := List String

instance : DecidableEq ItemFiles := by
  unfold ItemFiles
  infer_instance

instance : Membership String ItemFiles := by
  unfold ItemFiles
  infer_instance

/-- `indexer.getIndexPath`: probe the candidate index artifacts in the
fixed priority order of the source and return the first that exists. -/
def getIndexPath (itemFiles : List String) (id : String) : Option String :=
  if itemFiles.contains (id ++ "/index.html") then some (id ++ "/index.html")
  else if itemFiles.contains (id ++ ".html") then some (id ++ ".html")
  else if itemFiles.contains (id ++ ".htm") then some (id ++ ".htm")
  else if itemFiles.contains (id ++ ".xhtml") then some (id ++ ".xhtml")
  else if itemFiles.contains (id ++ ".xht") then some (id ++ ".xht")
  else if itemFiles.contains (id ++ ".maff") then some (id ++ ".maff")
  else if itemFiles.contains (id ++ ".htz") then some (id ++ ".htz")
  else if itemFiles.contains (id ++ ".mht") then some (id ++ ".mht")
  else if itemFiles.contains (id ++ ".epub") then some (id ++ ".epub")
  else none

/-- The candidate list named by the claim, in the claimed order. -/
def indexCandidates (id : String) : List String :=
  [id ++ "/index.html", id ++ ".html", id ++ ".htm", id ++ ".xhtml",
   id ++ ".xht", id ++ ".maff", id ++ ".htz", id ++ ".mht", id ++ ".epub"]

/-! ### `indexer.parseIndexDat` -/

/-- `values.join('\t')`. -/
def tabJoin (l : List String) : String :=
  String.intercalate "\t" l

/-- `indexer.parseIndexDat`: split into lines; fewer than two lines means
invalid (`null`); otherwise fill a mapping line by line, skipping lines
without a tab-separated value part. -/
def parseIndexDat (text : String) : Option (List (String × String)) :=
  let data := jsSplit '\n' text
  if data.length < 2 then none
  else some (data.foldl (fun m d =>
    match jsSplit '\t' d with
    | [] => m
    | [_] => m
    | key :: values => setA m key (tabJoin values)) [])

/-- Claim-side description of the per-line key/value reading: the first
tab-separated field is the key, the remaining tab-joined fields the
value; a line with no value fields yields nothing. -/
def datLineKV (d : String) : Option (String × String) :=
  match jsSplit '\t' d with
  | [] => none
  | [_] => none
  | key :: values => some (key, tabJoin values)

theorem lookupA_foldl_setA (l : List (String × String))
    (m₀ : List (String × String)) (k : String) :
    lookupA (l.foldl (fun m p => setA m p.1 p.2) m₀) k =
      match l.reverse.find? (fun p => p.1 == k) with
      | some p => some p.2
      | none => lookupA m₀ k := by
  induction l generalizing m₀ with
  | nil => simp
  | cons p rest ih =>
    rw [List.foldl_cons, ih, List.reverse_cons, List.find?_append]
    cases hfind : rest.reverse.find? (fun q => q.1 == k) with
    | some q => simp [hfind, Option.orElse]
    | none =>
      by_cases hk : p.1 = k
      · simp [hfind, List.find?, hk, lookupA_setA_self, Option.orElse]
      · have hbeq : (p.1 == k) = false := beq_eq_false_iff_ne.2 hk
        simp [hfind, List.find?, hbeq, lookupA_setA_ne _ _ _ _ hk, Option.orElse]

/-! ### Splitting a folder hint on runs of separator characters

`metas[id].folder.split(/[\t\n\r\v\f]+/)` splits on maximal runs of the
five whitespace separators (so consecutive separators yield no empty
segment, but a leading or trailing separator yields a leading or
trailing empty segment, as the JS regex split does). -/

/-- The separator class of the folder-hint regex. -/
def isFolderSep (c : Char) : Bool :=
  c == '\t' || c == '\n' || c == '\r' || c == '\x0b' || c == '\x0c'

/-- Split a character list on maximal runs of separator characters; the
flag records whether the previous character was a separator (further
separators in a run emit no empty segment). -/
def splitRunsGo (p : Char → Bool) : List Char → List Char → Bool → List String
  | [], cur, _ => [cur.reverse.asString]
  | c :: rest, cur, inSep =>
    if p c then
      if inSep then splitRunsGo p rest cur true
      else cur.reverse.asString :: splitRunsGo p rest [] true
    else splitRunsGo p rest (c :: cur) false

/-- JS `String.prototype.split` with a `[...]+` character-class regex. -/
def splitRuns (p : Char → Bool) (s : String) : List String :=
  splitRunsGo p s.toList [] false

/-! ### Metadata fixup (`indexer.import`, the `/* Fix meta and toc */`
pass over `scrapbookData.meta`, source lines 756-832)

The duplicate-identifier branch of the source compares
`scrapbookData.meta[newId].index === index` — but no `index` variable is
bound in any enclosing scope at that point, so reaching the branch
raises a `ReferenceError`, which the top-level handler of
`indexer.import` turns into an aborted run.  The embedding models
reaching that branch as `Except.error ()`. -/

/-- The field-fallback block (source lines 805-831): empty
`type`/`source`/`comment`/`icon` become the empty string; an empty title
falls back to a filename derived from `source`, then to the identifier
(separators keep the empty string); empty `modify` falls back to the
current time, empty `create` to the resulting `modify`.
`utf` is the external `scrapbook.urlToFilename` collaborator. -/
def fixMetaFields (now : Nat) (utf : String → String) (id : String)
    (m : MetaRec) : MetaRec :=
  let type := jor m.type (some "")
  let source := jor m.source (some "")
  let title := jor m.title
    (jor (if jtruthy source then source.map utf else some "")
      (if type ≠ some "separator" then some id else some ""))
  let modify := jor m.modify (some (dateToId now))
  let create := jor m.create modify
  let icon := jor m.icon (some "")
  let comment := jor m.comment (some "")
  { m with type := type, source := source, title := title, modify := modify,
           create := create, icon := icon, comment := comment }

/-- The per-item data file groups `dataDirs`. -/
def DataDirs := List (String × ItemFiles)

instance : DecidableEq DataDirs := by
  unfold DataDirs
  infer_instance

/-- Container item types, exempt from the data-file existence checks. -/
def isContainerType (t : Option String) : Bool :=
  t == some "folder" || t == some "separator" || t == some "bookmark"

/-- Identifier retargeting (source lines 759-783): relocate the entry
and its data-file group to a free declared id; a taken declared id
reaches the comparison against the unbound `index` and aborts. -/
def retargetOf (metas : List (String × MetaRec))
    (dataDirs : List (String × List String)) (id0 : String) (meta : MetaRec) :
    Except Unit (String × List (String × MetaRec) × List (String × List String)) :=
  match meta.id with
  | none => .ok (id0, metas, dataDirs)
  | some newId =>
    if newId = "" ∨ newId = id0 then .ok (id0, metas, dataDirs)
    else
      match lookupA metas newId with
      | none =>
        let metas1 := eraseA (setA metas newId meta) id0
        let dataDirs1 :=
          match lookupA dataDirs id0 with
          | some files => eraseA (setA dataDirs newId files) id0
          | none => eraseA dataDirs id0
        .ok (newId, metas1, dataDirs1)
      | some _ => .error ()

/-- Stale-item removal, index re-probing (source lines 785-803) and
field fallback (source lines 805-831) for the entry now stored at `id`. -/
def staleAndFix (now : Nat) (utf : String → String)
    (metas1 : List (String × MetaRec)) (dataDirs1 : List (String × List String))
    (id : String) (meta : MetaRec) :
    List (String × MetaRec) × List (String × List String) :=
  if !isContainerType meta.type then
    match lookupA dataDirs1 id with
    | none => (eraseA metas1 id, dataDirs1)
    | some files =>
      let hasIndex : Bool :=
        match meta.index with
        | some ix => (ix != "") && files.contains ix
        | none => false
      let meta2 :=
        if hasIndex then meta
        else
          match getIndexPath files id with
          | some ix => { meta with index := some ix }
          | none => meta
      (setA metas1 id (fixMetaFields now utf id meta2), dataDirs1)
  else
    (setA metas1 id (fixMetaFields now utf id meta), dataDirs1)

/-- One iteration of the metadata fixup loop for the key `id0`:
identifier retargeting, stale-item removal and index re-probing, then
field fallback.  A key no longer present when its turn comes is skipped
(JS `for...in` checks liveness at visit time). -/
def fixMetaStep (now : Nat) (utf : String → String)
    (st : List (String × MetaRec) × List (String × List String)) (id0 : String) :
    Except Unit (List (String × MetaRec) × List (String × List String)) :=
  match lookupA st.1 id0 with
  | none => .ok st
  | some meta =>
    match retargetOf st.1 st.2 id0 meta with
    | .error e => .error e
    | .ok (id, metas1, dataDirs1) =>
      .ok (staleAndFix now utf metas1 dataDirs1 id meta)

/-- The fixup loop over an explicit key list. -/
def fixMetaList (now : Nat) (utf : String → String) :
    List String → List (String × MetaRec) × List (String × List String) →
    Except Unit (List (String × MetaRec) × List (String × List String))
  | [], st => .ok st
  | id :: rest, st =>
    match fixMetaStep now utf st id with
    | .error e => .error e
    | .ok st1 => fixMetaList now utf rest st1

/-- The whole metadata fixup pass: iterate over the keys present when
the loop starts (JS `for...in` does not visit keys added during the
loop, and the loop only ever deletes the key it is processing). -/
def fixMetaPass (now : Nat) (utf : String → String)
    (metas₀ : List (String × MetaRec)) (dataDirs₀ : List (String × List String)) :
    Except Unit (List (String × MetaRec) × List (String × List String)) :=
  fixMetaList now utf (keysA metas₀) (metas₀, dataDirs₀)

/-! ### TOC pruning (`indexer.import`, source lines 834-864) -/

/-- The TOC mapping `scrapbookData.toc`. -/
def Toc := List (String × List String)

instance : DecidableEq Toc := by
  unfold Toc
  infer_instance

/-- The mutable context of the TOC passes: the TOC, the set of
identifiers referred to as someone's child (`referredIds`; modelled as a
list, membership is all that is consulted), and the title-to-identifier
map (`titleIdMap`; JS `Map` keys may be `undefined`, hence
`Option String` keys). -/
structure TocCtx where
  toc : List (String × List String)
  referred : List String
  tmap : List (Option String × String)
deriving DecidableEq

/-- One iteration of the TOC pruning loop for the key `id`: drop the
whole key if it has no surviving metadata entry (reserved roots exempt);
filter its children to those with surviving metadata entries that are
not reserved roots, accumulating `referredIds` and `titleIdMap`; drop
the key if it is left empty (reserved roots exempt). -/
def pruneChildStep (metas : List (String × MetaRec))
    (acc : List String × List String × List (Option String × String))
    (refId : String) :
    List String × List String × List (Option String × String) :=
  match lookupA metas refId with
  | none => acc
  | some m =>
    if refId = "root" ∨ refId = "hidden" then acc
    else (acc.1 ++ [refId], refId :: acc.2.1, setA acc.2.2 m.title refId)

def tocPruneStep (metas : List (String × MetaRec)) (st : TocCtx) (id : String) :
    TocCtx :=
  match lookupA st.toc id with
  | none => st
  | some children =>
    if ¬containsA metas id ∧ id ≠ "root" ∧ id ≠ "hidden" then
      { st with toc := eraseA st.toc id }
    else
      let acc := children.foldl (pruneChildStep metas) ([], st.referred, st.tmap)
      let toc1 := setA st.toc id acc.1
      if acc.1.isEmpty ∧ id ≠ "root" ∧ id ≠ "hidden" then
        { toc := eraseA toc1 id, referred := acc.2.1, tmap := acc.2.2 }
      else
        { toc := toc1, referred := acc.2.1, tmap := acc.2.2 }

/-- The whole TOC pruning pass, iterating over the keys present when the
loop starts. -/
def tocPrune (metas : List (String × MetaRec)) (toc₀ : List (String × List String)) :
    TocCtx :=
  (keysA toc₀).foldl (tocPruneStep metas) ⟨toc₀, [], []⟩

/-! ### Orphan re-insertion (`insertToToc` and the loop that follows it,
source lines 866-910) -/

/-- The state threaded through orphan re-insertion: metadata (folders
may be synthesized into it), the TOC, and the title map. -/
structure InsCtx where
  metas : List (String × MetaRec)
  toc : List (String × List String)
  tmap : List (Option String × String)
deriving DecidableEq

/-- Append a child to a TOC key (`toc[k].push(c)`). -/
def tocPush (toc : List (String × List String)) (k c : String) :
    List (String × List String) :=
  setA toc k (((lookupA toc k).getD []) ++ [c])

/-- One path segment of the `insertToToc` walk: resolve the segment to
an existing child folder of the current parent with a matching title (a
title-map hit alone is not enough: the mapped identifier must have a
metadata entry and already be linked under the parent), or synthesize a
fresh folder and append it; ensure the chosen folder has a TOC entry;
returns the folder identifier (the next parent) and the state. -/
def insertSeg (now : Nat) (seg parentId : String) (st : InsCtx) :
    String × InsCtx :=
  let st1 :=
    match lookupA st.tmap (some seg) with
    | some fid =>
      if containsA st.metas fid && ((lookupA st.toc parentId).getD []).contains fid then
        (fid, st)
      else
        let gen := generateFolder now seg st.metas
        (gen.1, ⟨gen.2, tocPush st.toc parentId gen.1, setA st.tmap (some seg) gen.1⟩)
    | none =>
      let gen := generateFolder now seg st.metas
      (gen.1, ⟨gen.2, tocPush st.toc parentId gen.1, setA st.tmap (some seg) gen.1⟩)
  if containsA st1.2.toc st1.1 then st1
  else (st1.1, { st1.2 with toc := setA st1.2.toc st1.1 [] })

def insertSegs (now : Nat) : List String → String → InsCtx → String × InsCtx
  | [], parentId, st => (parentId, st)
  | seg :: rest, parentId, st =>
    let s1 := insertSeg now seg parentId st
    insertSegs now rest s1.1 s1.2

/-- `insertToToc`: append the orphan under the root, or under the chain
of folders named by its transient folder hint. -/
def insertToToc (now : Nat) (id : String) (st : InsCtx) : InsCtx :=
  match lookupA st.metas id with
  | none => st
  | some meta =>
    if ¬jtruthy meta.folder then
      { st with toc := tocPush st.toc "root" id }
    else
      let segs := splitRuns isFolderSep (meta.folder.getD "")
      let walk := insertSegs now segs "root" st
      { walk.2 with toc := tocPush walk.2.toc walk.1 id }

/-- The JS sort token `[meta.exported, id]` compared as arrays, i.e. as
the string `exported + "," + id` (`undefined` renders as the empty
string). -/
def sortKeyJS (metas : List (String × MetaRec)) (id : String) : String :=
  (((lookupA metas id).bind MetaRec.exported).getD "") ++ "," ++ id

/-- One iteration of the orphan re-insertion loop: insert the entry if
nothing refers to it and it is not a reserved root, record its title,
then strip the transient `id`/`folder`/`exported` fields. -/
def insertStep (now : Nat) (referred : List String) (st : InsCtx) (id : String) :
    InsCtx :=
  let st1 :=
    if id ∉ referred ∧ id ≠ "root" ∧ id ≠ "hidden" then
      let st' := insertToToc now id st
      match lookupA st'.metas id with
      | some m => { st' with tmap := setA st'.tmap m.title id }
      | none => st'
    else st
  match lookupA st1.metas id with
  | some m =>
    let stripped : MetaRec := { m with id := none, folder := none, exported := none }
    { st1 with metas := setA st1.metas id stripped }
  | none => st1

/-- The orphan re-insertion pass: iterate the metadata keys present at
the start of the pass, sorted by the export-hint token (folders
synthesized during the pass are not iterated). -/
def insertPass (now : Nat) (metas₁ : List (String × MetaRec))
    (toc₁ : List (String × List String)) (referred : List String)
    (tmap₁ : List (Option String × String)) : InsCtx :=
  let sorted := insertionSortJS
    (fun a b => strLe (sortKeyJS metas₁ a) (sortKeyJS metas₁ b)) (keysA metas₁)
  sorted.foldl (insertStep now referred) ⟨metas₁, toc₁, tmap₁⟩

/-! ### Favicon cache pass (`indexer.import`, source lines 911-1008)

`resolve` abstracts the external fetch/decode/hash chain: given the
source icon reference it yields the content-addressed cache file name
(`<hash><ext>`), or `none` on failure.  `fetches` records one element
per actual invocation of `resolve` (memoization hits do not invoke it).
The staging of the cache file into the zip does not affect the
metadata, the memo table, or the invocation count, and is not modelled. -/

/-- The icon value the favicon pass writes for a resolved source: the
cache path relative to the item index location on success
(`(index.indexOf('/') !== -1 ? '../' : '') + '../tree/favicon/' + name`),
or the empty string on failure. -/
def favIconResult (index : Option String) (r : Option String) : Option String :=
  match r with
  | some name =>
    some ((if jsHasChar '/' ((jor index (some "")).getD "") then "../" else "")
      ++ "../tree/favicon/" ++ name)
  | none => some ""

structure FavCtx where
  metas : List (String × MetaRec)
  memo : List (String × Option String)
  fetches : List String
deriving DecidableEq

/-- One favicon task: skip icons that are absent, empty, or without a
scheme separator (writing back `icon || ""`); otherwise resolve through
the URL-access memo and rewrite the icon to the cache path relative to
the item's index location (failures clear the icon to empty). -/
def favStep (resolve : String → Option String) (st : FavCtx) (id : String) :
    FavCtx :=
  match lookupA st.metas id with
  | none => st
  | some meta =>
    match meta.icon with
    | none => { st with metas := setA st.metas id { meta with icon := some "" } }
    | some url =>
      if url = "" ∨ ¬jsHasChar ':' url then
        { st with metas := setA st.metas id { meta with icon := some url } }
      else
        let access :=
          match lookupA st.memo url with
          | some r => (r, st.memo, st.fetches)
          | none =>
            let r := resolve url
            (r, setA st.memo url r, st.fetches ++ [url])
        { metas := setA st.metas id { meta with icon := favIconResult meta.index access.1 },
          memo := access.2.1, fetches := access.2.2 }

/-- The favicon cache pass over all surviving items. -/
def faviconPass (resolve : String → Option String)
    (metas₂ : List (String × MetaRec)) : FavCtx :=
  (keysA metas₂).foldl (favStep resolve) ⟨metas₂, [], []⟩

/-! ### Output diffing and backup (`indexer.import`, source lines
1119-1153)

`sha` abstracts the external content-hash collaborator.  The pass walks
the staged zip entries; for each file entry under `tree/` (but not
`tree/cache/`) that also existed among the previous tree files, it
either removes the staged entry (equal hashes) or stages the previous
version under the `tree.bak/` counterpart path (differing hashes). -/

/-- JS `string.slice(n)`. -/
def jsDrop (s : String) (n : Nat) : String :=
  (s.toList.drop n).asString

/-- The backup counterpart of a `tree/` path:
`'tree.bak/' + path.slice('tree/'.length)`. -/
def bakOf (p : String) : String :=
  "tree.bak/" ++ jsDrop p 5

/-- One diff iteration for the staged entry `(path, newContent)`. -/
def diffStep (sha : String → String) (treeFiles : List (String × String))
    (zip : List (String × String)) (entry : String × String) :
    List (String × String) :=
  if ¬jsStartsWith entry.1 "tree/" then zip
  else if jsStartsWith entry.1 "tree/cache/" then zip
  else
    match lookupA treeFiles entry.1 with
    | none => zip
    | some oldFile =>
      if sha oldFile = sha entry.2 then eraseA zip entry.1
      else setA zip (bakOf entry.1) oldFile

/-- The diff-and-backup pass: iterate the entries staged when the pass
starts. -/
def diffPass (sha : String → String) (treeFiles : List (String × String))
    (zip₀ : List (String × String)) : List (String × String) :=
  zip₀.foldl (diffStep sha treeFiles) zip₀

/-! ### The reconciliation pipeline

The passes of `indexer.import` relevant to the metadata/TOC claims, in
source order: metadata fixup, TOC pruning, orphan re-insertion, favicon
caching.  The favicon pass does not touch the TOC.  A `none` result is
the aborted run (the duplicate-identifier branch). -/

/-- `scrapbookData.toc` as initialized (source lines 394-400). -/
def scrapbookDataInitToc : List (String × List String) :=
  [("root", [])]

/-- The reconciliation pipeline from the merged model to the final
metadata and TOC. -/
def runReconcile (now : Nat) (utf : String → String)
    (resolve : String → Option String) (metas₀ : List (String × MetaRec))
    (dataDirs₀ : List (String × List String))
    (toc₀ : List (String × List String)) :
    Option (List (String × MetaRec) × List (String × List String)) :=
  match fixMetaPass now utf metas₀ dataDirs₀ with
  | .error _ => none
  | .ok st₁ =>
    let pr := tocPrune st₁.1 toc₀
    let ins := insertPass now st₁.1 pr.toc pr.referred pr.tmap
    let fav := faviconPass resolve ins.metas
    some (fav.metas, ins.toc)

/-- How many times `c` occurs as a child anywhere in the TOC. -/
def childOccurrences (toc : List (String × List String)) (c : String) : Nat :=
  (toc.map (fun kv => kv.2.count c)).sum

/-! ## Claim C5: index-path probing order -/

/-- C5: for every item file group, the resolved index path is the first
existing candidate in the exact order `<id>/index.html`, `<id>.html`,
`<id>.htm`, `<id>.xhtml`, `<id>.xht`, `<id>.maff`, `<id>.htz`,
`<id>.mht`, `<id>.epub`, and `none` when no candidate exists. -/
theorem getIndexPath_first_existing_candidate (itemFiles : List String) (id : String) :
    getIndexPath itemFiles id =
      (indexCandidates id).find? (fun c => itemFiles.contains c) := by
  simp only [getIndexPath, indexCandidates]
  split_ifs <;> simp_all [List.find?]

/-! ## Claim C8: legacy per-item sidecar validity -/

/-- The body of the `parseIndexDat` line loop coincides with folding the
claim-side per-line reading over the lines. -/
theorem parseIndexDat_foldl_eq (lines : List String) (m₀ : List (String × String)) :
    lines.foldl (fun m d =>
      match jsSplit '\t' d with
      | [] => m
      | [_] => m
      | key :: values => setA m key (tabJoin values)) m₀
    = (lines.filterMap datLineKV).foldl (fun m p => setA m p.1 p.2) m₀ := by
  induction lines generalizing m₀ with
  | nil => rfl
  | cons d rest ih =>
    cases hd : jsSplit '\t' d with
    | nil => simp [hd, datLineKV, ih]
    | cons key vs =>
      cases vs with
      | nil => simp [hd, datLineKV, ih]
      | cons v vs2 => simp [hd, datLineKV, ih]

/-- C8: parsing a legacy sidecar text returns `null` exactly when the
text has fewer than two lines; otherwise it returns the flat mapping in
which each line contributes its first tab-separated field as key and the
tab-joined remaining fields as value (later lines win; lines without a
value part contribute nothing). -/
theorem parseIndexDat_spec (text : String) :
    (parseIndexDat text = none ↔ (jsSplit '\n' text).length < 2) ∧
    (∀ m, parseIndexDat text = some m → ∀ k, lookupA m k =
      (((jsSplit '\n' text).filterMap datLineKV).reverse.find?
        (fun p => p.1 == k)).map Prod.snd) := by
  constructor
  · unfold parseIndexDat
    by_cases h : (jsSplit '\n' text).length < 2 <;> simp [h]
  · intro m hm k
    unfold parseIndexDat at hm
    by_cases h : (jsSplit '\n' text).length < 2
    · simp [h] at hm
    · simp only [if_neg h, Option.some.injEq] at hm
      subst hm
      rw [parseIndexDat_foldl_eq, lookupA_foldl_setA]
      cases hfind : ((jsSplit '\n' text).filterMap datLineKV).reverse.find?
          (fun p => p.1 == k) <;> simp [hfind]

/-- Witness for C8 at a concrete sidecar text. -/
theorem parseIndexDat_spec_witness :
    lookupA [("a", "b"), ("c", "d\te")] "c" =
      (((jsSplit '\n' "a\tb\nc\td\te\na").filterMap datLineKV).reverse.find?
        (fun p => p.1 == "c")).map Prod.snd :=
  (parseIndexDat_spec "a\tb\nc\td\te\na").2 [("a", "b"), ("c", "d\te")] (by decide) "c"

/-! ## Claim C2: the duplicate-identifier branch

The branch for an item whose self-declared id differs from its storage
id while the declared id is already occupied evaluates
`scrapbookData.meta[newId].index === index`, where `index` is unbound in
every enclosing scope: the run aborts (and under the reading of the
specification in which the branch completes, it ends with a bare
`return`, terminating the whole fixup pass).  Either way the pass does
not continue with the remaining items, so the claimed behaviour does not
hold; the failing input below exhibits the abort. -/

/-- A merged model in which item `...000` declares the already-occupied
id `...001` pointing at the same index artifact, and a further item
`...002` is still waiting for its field fallback. -/
def metasDupId : List (String × MetaRec) :=
  [("20180101000000000",
    { id := some "20180101000000001",
      index := some "20180101000000000/index.html", type := some "bookmark" }),
   ("20180101000000001",
    { index := some "20180101000000000/index.html", type := some "bookmark" }),
   ("20180101000000002", { type := some "bookmark" })]

/-- C2 (code bug): on the failing input the metadata fixup pass aborts
at the duplicate-identifier item instead of treating it as a repointing
no-op and continuing with the remaining items. -/
theorem fixMetaPass_aborts_on_duplicate_id :
    fixMetaPass 0 (fun _ => "") metasDupId [] = .error () := by
  rfl

/-! ## Claim C7: field fallback -/

/-- The filename the title falls back to: derived from the
(possibly defaulted) source via the external `scrapbook.urlToFilename`. -/
def sourceFilename (utf : String → String) (m : MetaRec) : Option String :=
  if jtruthy m.source then m.source.map utf else some ""

theorem retargetOf_cases (metas : List (String × MetaRec))
    (dd : List (String × List String)) (id0 : String) (meta : MetaRec)
    (id : String) (m1 : List (String × MetaRec)) (d1 : List (String × List String))
    (h : retargetOf metas dd id0 meta = .ok (id, m1, d1)) :
    (id = id0 ∧ m1 = metas ∧ d1 = dd) ∨
    (lookupA metas id = none ∧ id ≠ id0 ∧ m1 = eraseA (setA metas id meta) id0) := by
  unfold retargetOf at h
  cases hid : meta.id with
  | none =>
    simp only [hid] at h
    simp only [Except.ok.injEq, Prod.mk.injEq] at h
    exact Or.inl ⟨h.1.symm, h.2.1.symm, h.2.2.symm⟩
  | some newId =>
    simp only [hid] at h
    by_cases hcond : newId = "" ∨ newId = id0
    · rw [if_pos hcond] at h
      simp only [Except.ok.injEq, Prod.mk.injEq] at h
      exact Or.inl ⟨h.1.symm, h.2.1.symm, h.2.2.symm⟩
    · rw [if_neg hcond] at h
      cases hlk : lookupA metas newId with
      | none =>
        rw [hlk] at h
        simp only [Except.ok.injEq, Prod.mk.injEq] at h
        obtain ⟨h1, h2, h3⟩ := h
        subst h1
        refine Or.inr ⟨hlk, fun hc => hcond (Or.inr hc), h2.symm⟩
      | some x =>
        rw [hlk] at h
        cases h

theorem staleAndFix_fst_form (now : Nat) (utf : String → String)
    (m1 : List (String × MetaRec)) (d1 : List (String × List String))
    (id : String) (meta : MetaRec) :
    (staleAndFix now utf m1 d1 id meta).1 = eraseA m1 id ∨
    ∃ mm, (staleAndFix now utf m1 d1 id meta).1 =
      setA m1 id (fixMetaFields now utf id mm) := by
  unfold staleAndFix
  by_cases hc : (!isContainerType meta.type) = true
  · rw [if_pos hc]
    cases hd : lookupA d1 id with
    | none => exact Or.inl rfl
    | some files => exact Or.inr ⟨_, rfl⟩
  · rw [if_neg hc]
    exact Or.inr ⟨_, rfl⟩

/-- All entries of `metas` whose key is outside `R` are field-fallback
images. -/
def entriesImages (now : Nat) (utf : String → String)
    (metas : List (String × MetaRec)) (R : List String) : Prop :=
  ∀ id m, lookupA metas id = some m →
    id ∈ R ∨ ∃ m₀, m = fixMetaFields now utf id m₀

theorem fixMetaStep_preserves (now : Nat) (utf : String → String)
    (st st1 : List (String × MetaRec) × List (String × List String))
    (id0 : String) (rest : List String)
    (hstep : fixMetaStep now utf st id0 = .ok st1)
    (hnd : (keysA st.1).Nodup)
    (hinv : entriesImages now utf st.1 (id0 :: rest)) :
    (keysA st1.1).Nodup ∧ entriesImages now utf st1.1 rest := by
  unfold fixMetaStep at hstep
  cases hm : lookupA st.1 id0 with
  | none =>
    rw [hm] at hstep
    cases hstep
    refine ⟨hnd, fun id m h => ?_⟩
    rcases hinv id m h with hR | him
    · rcases List.mem_cons.1 hR with rfl | hR2
      · rw [hm] at h; cases h
      · exact Or.inl hR2
    · exact Or.inr him
  | some meta =>
    simp only [hm] at hstep
    cases hr : retargetOf st.1 st.2 id0 meta with
    | error e => rw [hr] at hstep; cases hstep
    | ok tr =>
      obtain ⟨id, m1, d1⟩ := tr
      rw [hr] at hstep
      simp only [Except.ok.injEq] at hstep
      subst hstep
      -- facts about the intermediate map m1
      have hmid : (keysA m1).Nodup ∧
          (∀ id2 m2, lookupA m1 id2 = some m2 →
            (id2 = id ∧ m2 = meta) ∨
            (id2 ≠ id0 ∧ lookupA st.1 id2 = some m2)) := by
        rcases retargetOf_cases st.1 st.2 id0 meta id m1 d1 hr with
          ⟨rfl, rfl, rfl⟩ | ⟨hfresh, hne, rfl⟩
        · refine ⟨hnd, fun id2 m2 h2 => ?_⟩
          by_cases hid2 : id2 = id
          · subst hid2
            rw [hm] at h2
            exact Or.inl ⟨rfl, (Option.some.inj h2).symm⟩
          · exact Or.inr ⟨hid2, h2⟩
        · have hnotmem : id ∉ keysA st.1 := by
            intro hmem
            rw [← lookupA_isSome_iff_mem_keysA] at hmem
            rw [hfresh] at hmem
            cases hmem
          have hnds : (keysA (setA st.1 id meta)).Nodup :=
            nodup_keysA_setA st.1 id meta hnd
          refine ⟨nodup_keysA_eraseA _ id0 hnds, fun id2 m2 h2 => ?_⟩
          by_cases hid2 : id2 = id0
          · subst hid2
            rw [lookupA_eraseA_self _ _ hnds] at h2
            cases h2
          · rw [lookupA_eraseA_ne _ _ _ (fun hc => hid2 hc.symm)] at h2
            by_cases hid3 : id2 = id
            · subst hid3
              rw [lookupA_setA_self] at h2
              exact Or.inl ⟨rfl, (Option.some.inj h2).symm⟩
            · rw [lookupA_setA_ne _ _ _ _ (fun hc => hid3 hc.symm)] at h2
              exact Or.inr ⟨hid2, h2⟩
      obtain ⟨hnd1, hent1⟩ := hmid
      -- two forms of the final map
      rcases staleAndFix_fst_form now utf m1 d1 id meta with hform | ⟨mm, hform⟩
      · rw [hform]
        refine ⟨nodup_keysA_eraseA _ id hnd1, fun id2 m2 h2 => ?_⟩
        by_cases hid2 : id2 = id
        · subst hid2
          rw [lookupA_eraseA_self _ _ hnd1] at h2
          cases h2
        · rw [lookupA_eraseA_ne _ _ _ (fun hc => hid2 hc.symm)] at h2
          rcases hent1 id2 m2 h2 with ⟨rfl, _⟩ | ⟨hne0, hlk⟩
          · exact absurd rfl hid2
          · rcases hinv id2 m2 hlk with hR | him
            · rcases List.mem_cons.1 hR with rfl | hR2
              · exact absurd rfl hne0
              · exact Or.inl hR2
            · exact Or.inr him
      · rw [hform]
        refine ⟨nodup_keysA_setA _ _ _ hnd1, fun id2 m2 h2 => ?_⟩
        by_cases hid2 : id2 = id
        · subst hid2
          rw [lookupA_setA_self] at h2
          exact Or.inr ⟨mm, (Option.some.inj h2).symm⟩
        · rw [lookupA_setA_ne _ _ _ _ (fun hc => hid2 hc.symm)] at h2
          rcases hent1 id2 m2 h2 with ⟨rfl, _⟩ | ⟨hne0, hlk⟩
          · exact absurd rfl hid2
          · rcases hinv id2 m2 hlk with hR | him
            · rcases List.mem_cons.1 hR with rfl | hR2
              · exact absurd rfl hne0
              · exact Or.inl hR2
            · exact Or.inr him

theorem fixMetaList_ok_images (now : Nat) (utf : String → String)
    (R : List String) :
    ∀ (st res : List (String × MetaRec) × List (String × List String)),
      fixMetaList now utf R st = .ok res →
      (keysA st.1).Nodup → entriesImages now utf st.1 R →
      (keysA res.1).Nodup ∧ entriesImages now utf res.1 [] := by
  induction R with
  | nil =>
    intro st res hok hnd hinv
    unfold fixMetaList at hok
    cases hok
    exact ⟨hnd, hinv⟩
  | cons id0 rest ih =>
    intro st res hok hnd hinv
    unfold fixMetaList at hok
    cases hstep : fixMetaStep now utf st id0 with
    | error e => rw [hstep] at hok; cases hok
    | ok st1 =>
      rw [hstep] at hok
      obtain ⟨hnd1, hinv1⟩ :=
        fixMetaStep_preserves now utf st st1 id0 rest hstep hnd hinv
      exact ih st1 res hok hnd1 hinv1

/-- The fixup pass keeps the metadata key list duplicate-free and leaves
every surviving entry equal to a field-fallback image. -/
theorem fixMetaPass_ok_images (now : Nat) (utf : String → String)
    (metas₀ : List (String × MetaRec)) (dataDirs₀ : List (String × List String))
    (res : List (String × MetaRec) × List (String × List String))
    (hnd : (keysA metas₀).Nodup)
    (hok : fixMetaPass now utf metas₀ dataDirs₀ = .ok res) :
    (keysA res.1).Nodup ∧
    ∀ i mm, lookupA res.1 i = some mm →
      ∃ m₀, mm = fixMetaFields now utf i m₀ := by
  obtain ⟨h1, h2⟩ := fixMetaList_ok_images now utf (keysA metas₀)
    (metas₀, dataDirs₀) res hok hnd
    (fun id m h => Or.inl ((lookupA_isSome_iff_mem_keysA _ _).1 (by simp [h])))
  refine ⟨h1, fun i mm hmm => ?_⟩
  rcases h2 i mm hmm with h | h
  · cases h
  · exact h

/-- C7: the field fallback gives empty `type`/`source`/`comment`/`icon`
the empty string; an empty title falls back first to the filename
derived from `source`, then to the identifier (a separator falls back to
the empty string instead); an empty `modify` falls back to the current
time and an empty `create` to the resulting `modify`; and after the
fixup pass every surviving metadata entry is such a fallback image. -/
theorem fixMetaFields_fallback_spec (now : Nat) (utf : String → String)
    (id : String) (m : MetaRec) :
    ((jtruthy m.type = false → (fixMetaFields now utf id m).type = some "") ∧
     (jtruthy m.source = false → (fixMetaFields now utf id m).source = some "") ∧
     (jtruthy m.comment = false → (fixMetaFields now utf id m).comment = some "") ∧
     (jtruthy m.icon = false → (fixMetaFields now utf id m).icon = some "")) ∧
    ((jtruthy m.title = true → (fixMetaFields now utf id m).title = m.title) ∧
     (jtruthy m.title = false → jtruthy (sourceFilename utf m) = true →
       (fixMetaFields now utf id m).title = sourceFilename utf m) ∧
     (jtruthy m.title = false → jtruthy (sourceFilename utf m) = false →
       jor m.type (some "") ≠ some "separator" →
       (fixMetaFields now utf id m).title = some id) ∧
     (jtruthy m.title = false → jtruthy (sourceFilename utf m) = false →
       jor m.type (some "") = some "separator" →
       (fixMetaFields now utf id m).title = some "")) ∧
    ((jtruthy m.modify = false →
       (fixMetaFields now utf id m).modify = some (dateToId now)) ∧
     (jtruthy m.create = false →
       (fixMetaFields now utf id m).create = (fixMetaFields now utf id m).modify)) ∧
    (∀ metas₀ dataDirs₀ res, (keysA metas₀).Nodup →
      fixMetaPass now utf metas₀ dataDirs₀ = .ok res →
      ∀ i mm, lookupA res.1 i = some mm →
        ∃ m₀, mm = fixMetaFields now utf i m₀) := by
  have hsf : (if jtruthy (jor m.source (some "")) then
      (jor m.source (some "")).map utf else some "") = sourceFilename utf m := by
    unfold sourceFilename
    by_cases hs : jtruthy m.source = true
    · rw [jor_of_truthy hs]
    · have hs' : jtruthy m.source = false := by
        revert hs; cases jtruthy m.source <;> simp
      rw [jor_of_falsy hs', if_neg (by decide), if_neg (by simp [hs'])]
  refine ⟨⟨?_, ?_, ?_, ?_⟩, ⟨?_, ?_, ?_, ?_⟩, ⟨?_, ?_⟩, ?_⟩
  · intro h; simp [fixMetaFields, jor_of_falsy h]
  · intro h; simp [fixMetaFields, jor_of_falsy h]
  · intro h; simp [fixMetaFields, jor_of_falsy h]
  · intro h; simp [fixMetaFields, jor_of_falsy h]
  · intro h; simp [fixMetaFields, jor_of_truthy h]
  · intro h1 h2
    simp only [fixMetaFields, jor_of_falsy h1, hsf]
    exact jor_of_truthy h2 _
  · intro h1 h2 h3
    simp only [fixMetaFields, jor_of_falsy h1, hsf]
    rw [jor_of_falsy h2, if_pos h3]
  · intro h1 h2 h3
    simp only [fixMetaFields, jor_of_falsy h1, hsf]
    rw [jor_of_falsy h2, if_neg (by simp [h3])]
  · intro h; simp [fixMetaFields, jor_of_falsy h]
  · intro h; simp [fixMetaFields, jor_of_falsy h]
  · intro metas₀ dataDirs₀ res hnd hok
    exact (fixMetaPass_ok_images now utf metas₀ dataDirs₀ res hnd hok).2

/-- Witness for C7: an all-empty record with identifier `X` gets title
`X`, and the concrete fixup run yields only fallback images. -/
theorem fixMetaFields_fallback_spec_witness :
    (fixMetaFields 0 (fun _ => "f") "X" {}).title = some "X" :=
  (fixMetaFields_fallback_spec 0 (fun _ => "f") "X" {}).2.1.2.2.1
    (by decide) (by decide) (by decide)

/-! ## Claims C10 and C3: the favicon cache pass -/

theorem metaRec_set_icon_self (m : MetaRec) (v : Option String) (h : m.icon = v) :
    { m with icon := v } = m := by
  cases m
  simp_all

theorem favStep_lookup_other (resolve : String → Option String) (st : FavCtx)
    (id id' : String) (h : id' ≠ id) :
    lookupA (favStep resolve st id).metas id' = lookupA st.metas id' := by
  have hset : ∀ v, lookupA (setA st.metas id v) id' = lookupA st.metas id' :=
    fun v => lookupA_setA_ne st.metas id id' v (fun hc => h hc.symm)
  unfold favStep
  cases hm : lookupA st.metas id with
  | none => rfl
  | some meta =>
    cases hicon : meta.icon with
    | none =>
      simp only [hicon]
      exact hset _
    | some url =>
      simp only [hicon]
      by_cases hcond : url = "" ∨ ¬jsHasChar ':' url = true
      · rw [if_pos hcond]
        exact hset _
      · rw [if_neg hcond]
        cases hmm : lookupA st.memo url <;> simp only [hmm] <;> exact hset _

theorem favStep_self_relative (resolve : String → Option String) (st : FavCtx)
    (id : String) (m : MetaRec) (s : String)
    (hm : lookupA st.metas id = some m) (hicon : m.icon = some s) (hs : s ≠ "")
    (hnc : jsHasChar ':' s = false) :
    lookupA (favStep resolve st id).metas id = some m := by
  unfold favStep
  simp only [hm, hicon]
  rw [if_pos (Or.inr (by simp [hnc]))]
  rw [lookupA_setA_self, metaRec_set_icon_self m (some s) hicon]

theorem favFold_metas_other (resolve : String → Option String) (id : String) :
    ∀ (L : List String) (st : FavCtx), (∀ k ∈ L, k ≠ id) →
      lookupA ((L.foldl (favStep resolve) st)).metas id = lookupA st.metas id := by
  intro L
  induction L with
  | nil => intro st _; rfl
  | cons k rest ih =>
    intro st hL
    rw [List.foldl_cons, ih _ (fun k2 h2 => hL k2 (List.mem_cons_of_mem _ h2))]
    exact favStep_lookup_other resolve st k id
      (fun hc => hL k (List.mem_cons_self _ _) hc.symm) ▸ rfl

theorem favFold_self_relative (resolve : String → Option String) (id : String)
    (m : MetaRec) (s : String) (hicon : m.icon = some s) (hs : s ≠ "")
    (hnc : jsHasChar ':' s = false) :
    ∀ (L : List String) (st : FavCtx), lookupA st.metas id = some m →
      lookupA ((L.foldl (favStep resolve) st)).metas id = some m := by
  intro L
  induction L with
  | nil => intro st h; exact h
  | cons k rest ih =>
    intro st h
    rw [List.foldl_cons]
    apply ih
    by_cases hk : k = id
    · subst hk
      exact favStep_self_relative resolve st k m s h hicon hs hnc
    · rw [favStep_lookup_other resolve st k id (fun hc => hk hc.symm)]
      exact h

/-- C10: the favicon pass leaves every entry whose icon is a non-empty
string without a scheme separator entirely unchanged (in particular the
icon field); only icons containing a colon are rewritten or cleared. -/
theorem faviconPass_keeps_relative_icons (resolve : String → Option String)
    (metas : List (String × MetaRec)) (id : String) (m : MetaRec) (s : String)
    (hm : lookupA metas id = some m) (hicon : m.icon = some s) (hs : s ≠ "")
    (hnc : jsHasChar ':' s = false) :
    lookupA (faviconPass resolve metas).metas id = some m :=
  favFold_self_relative resolve id m s hicon hs hnc (keysA metas)
    ⟨metas, [], []⟩ hm

/-- Witness for C10 at a concrete relative icon path. -/
theorem faviconPass_keeps_relative_icons_witness :
    lookupA (faviconPass (fun _ => none)
        [("A", { icon := some "rel.png" })]).metas "A" =
      some { icon := some "rel.png" } :=
  faviconPass_keeps_relative_icons (fun _ => none)
    [("A", { icon := some "rel.png" })] "A" { icon := some "rel.png" }
    "rel.png" (by decide) rfl (by decide) (by decide)

theorem favStep_memo_mono (resolve : String → Option String) (st : FavCtx)
    (id : String) (u : String) (r : Option String)
    (h : lookupA st.memo u = some r) :
    lookupA (favStep resolve st id).memo u = some r := by
  unfold favStep
  cases hm : lookupA st.metas id with
  | none => exact h
  | some meta =>
    cases hicon : meta.icon with
    | none => simp only [hicon]; exact h
    | some url =>
      simp only [hicon]
      by_cases hcond : url = "" ∨ ¬jsHasChar ':' url = true
      · rw [if_pos hcond]; exact h
      · rw [if_neg hcond]
        cases hmm : lookupA st.memo url with
        | some r2 => simp only [hmm]; exact h
        | none =>
          have hne : url ≠ u := by
            rintro rfl
            rw [hmm] at h
            cases h
          simp only [hmm]
          rw [lookupA_setA_ne _ _ _ _ hne]
          exact h

theorem favFold_memo_mono (resolve : String → Option String) (u : String)
    (r : Option String) :
    ∀ (L : List String) (st : FavCtx), lookupA st.memo u = some r →
      lookupA ((L.foldl (favStep resolve) st)).memo u = some r := by
  intro L
  induction L with
  | nil => intro st h; exact h
  | cons k rest ih =>
    intro st h
    exact ih _ (favStep_memo_mono resolve st k u r h)

/-- The at-most-one-fetch invariant of the URL-access memo. -/
def favInv (st : FavCtx) : Prop :=
  (∀ u, st.fetches.count u ≤ 1) ∧
  (∀ u ∈ st.fetches, containsA st.memo u = true)

theorem favStep_inv (resolve : String → Option String) (st : FavCtx)
    (id : String) (hinv : favInv st) : favInv (favStep resolve st id) := by
  unfold favStep
  cases hm : lookupA st.metas id with
  | none => exact hinv
  | some meta =>
    cases hicon : meta.icon with
    | none => simp only [hicon]; exact hinv
    | some url =>
      simp only [hicon]
      by_cases hcond : url = "" ∨ ¬jsHasChar ':' url = true
      · rw [if_pos hcond]; exact hinv
      · rw [if_neg hcond]
        cases hmm : lookupA st.memo url with
        | some r => simp only [hmm]; exact hinv
        | none =>
          simp only [hmm]
          obtain ⟨h1, h2⟩ := hinv
          have hnotin : url ∉ st.fetches := by
            intro hin
            have := h2 url hin
            rw [containsA, hmm] at this
            cases this
          constructor
          · intro u
            by_cases hu : u = url
            · subst hu
              rw [List.count_append]
              have : st.fetches.count u = 0 := List.count_eq_zero.2 hnotin
              simp [this]
            · rw [List.count_append]
              have : List.count u [url] = 0 :=
                List.count_eq_zero.2 (by simp [Ne.symm]; exact fun hc => hu hc)
              simp only [this, Nat.add_zero]
              exact h1 u
          · intro u hu
            rcases List.mem_append.1 hu with hu1 | hu2
            · have := h2 u hu1
              rw [containsA] at this ⊢
              by_cases huu : url = u
              · subst huu
                rw [lookupA_setA_self]
                rfl
              · rw [lookupA_setA_ne _ _ _ _ huu]
                exact this
            · have : u = url := by simpa using hu2
              subst this
              rw [containsA, lookupA_setA_self]
              rfl

theorem favFold_inv (resolve : String → Option String) :
    ∀ (L : List String) (st : FavCtx), favInv st →
      favInv (L.foldl (favStep resolve) st) := by
  intro L
  induction L with
  | nil => intro st h; exact h
  | cons k rest ih =>
    intro st h
    exact ih _ (favStep_inv resolve st k h)

/-- Processing an item whose icon is an absolute reference leaves its
entry rewritten through the memoized access for that reference. -/
theorem favStep_self_absolute (resolve : String → Option String) (st : FavCtx)
    (id : String) (m : MetaRec) (url : String)
    (hm : lookupA st.metas id = some m) (hicon : m.icon = some url)
    (hurl : url ≠ "") (hc : jsHasChar ':' url = true) :
    ∃ r, lookupA (favStep resolve st id).memo url = some r ∧
      lookupA (favStep resolve st id).metas id =
        some { m with icon := favIconResult m.index r } := by
  unfold favStep
  simp only [hm, hicon]
  rw [if_neg (by simp [hurl, hc])]
  cases hmm : lookupA st.memo url with
  | some r =>
    simp only [hmm]
    exact ⟨r, rfl, by rw [lookupA_setA_self]⟩
  | none =>
    simp only [hmm]
    refine ⟨resolve url, ?_, ?_⟩
    · rw [lookupA_setA_self]
    · rw [lookupA_setA_self]

/-- The per-item fate through the whole favicon pass, for an item with
an absolute icon reference. -/
theorem faviconPass_absolute_icon (resolve : String → Option String)
    (metas : List (String × MetaRec)) (id : String) (m : MetaRec) (url : String)
    (hnd : (keysA metas).Nodup)
    (hm : lookupA metas id = some m) (hicon : m.icon = some url)
    (hurl : url ≠ "") (hc : jsHasChar ':' url = true) :
    ∃ r, lookupA (faviconPass resolve metas).memo url = some r ∧
      lookupA (faviconPass resolve metas).metas id =
        some { m with icon := favIconResult m.index r } := by
  have hmem : id ∈ keysA metas :=
    (lookupA_isSome_iff_mem_keysA _ _).1 (by simp [hm])
  obtain ⟨L1, L2, hsplit⟩ := List.mem_iff_append.1 hmem
  have hnd2 : (L1 ++ id :: L2).Nodup := hsplit ▸ hnd
  have hid1 : ∀ k ∈ L1, k ≠ id := by
    intro k hk hkid
    subst hkid
    exact (List.disjoint_of_nodup_append hnd2) hk (List.mem_cons_self _ _)
  have hid2 : id ∉ L2 := by
    have := (List.nodup_append.1 hnd2).2.1
    exact (List.nodup_cons.1 this).1
  unfold faviconPass
  rw [hsplit, List.foldl_append, List.foldl_cons]
  set st1 : FavCtx := L1.foldl (favStep resolve) ⟨metas, [], []⟩ with hst1
  have hm1 : lookupA st1.metas id = some m := by
    rw [hst1, favFold_metas_other resolve id L1 _ hid1]
    exact hm
  obtain ⟨r, hr1, hr2⟩ := favStep_self_absolute resolve st1 id m url hm1 hicon hurl hc
  refine ⟨r, ?_, ?_⟩
  · exact favFold_memo_mono resolve url r L2 _ hr1
  · rw [favFold_metas_other resolve id L2 _ (fun k hk hkid => hid2 (hkid ▸ hk))]
    exact hr2

/-- C3: each distinct icon source is fetched/decoded at most once per
run, and any two surviving items with the identical absolute icon
reference resolve through the same memoized access, hence to the same
content-addressed cache file name. -/
theorem favicon_dedup (resolve : String → Option String)
    (metas : List (String × MetaRec)) (hnd : (keysA metas).Nodup) :
    (∀ u, (faviconPass resolve metas).fetches.count u ≤ 1) ∧
    (∀ id1 id2 m1 m2 url, lookupA metas id1 = some m1 →
      lookupA metas id2 = some m2 →
      m1.icon = some url → m2.icon = some url →
      url ≠ "" → jsHasChar ':' url = true →
      ∃ r, lookupA (faviconPass resolve metas).metas id1 =
          some { m1 with icon := favIconResult m1.index r } ∧
        lookupA (faviconPass resolve metas).metas id2 =
          some { m2 with icon := favIconResult m2.index r }) := by
  constructor
  · intro u
    have := favFold_inv resolve (keysA metas) ⟨metas, [], []⟩
      ⟨fun _ => by simp, fun u hu => absurd hu (List.not_mem_nil u)⟩
    exact this.1 u
  · intro id1 id2 m1 m2 url h1 h2 hi1 hi2 hurl hc
    obtain ⟨r1, hr1, hm1⟩ :=
      faviconPass_absolute_icon resolve metas id1 m1 url hnd h1 hi1 hurl hc
    obtain ⟨r2, hr2, hm2⟩ :=
      faviconPass_absolute_icon resolve metas id2 m2 url hnd h2 hi2 hurl hc
    rw [hr1] at hr2
    cases Option.some.inj hr2
    exact ⟨r1, hm1, hm2⟩

/-- Witness for C3: two items with the same data URI resolve through one
access. -/
theorem favicon_dedup_witness :
    ∃ r, lookupA (faviconPass (fun _ => some "hash.png")
        [("A", { icon := some "data:x" }), ("B", { icon := some "data:x" })]).metas "A" =
          some { icon := favIconResult none r } ∧
      lookupA (faviconPass (fun _ => some "hash.png")
        [("A", { icon := some "data:x" }), ("B", { icon := some "data:x" })]).metas "B" =
          some { icon := favIconResult none r } :=
  (favicon_dedup (fun _ => some "hash.png")
      [("A", { icon := some "data:x" }), ("B", { icon := some "data:x" })]
      (by decide)).2
    "A" "B" { icon := some "data:x" } { icon := some "data:x" } "data:x"
    (by decide) (by decide) rfl rfl (by decide) (by decide)

/-! ## Claim C6: output diffing and backup -/

theorem strToList_append (a b : String) :
    (a ++ b).toList = a.toList ++ b.toList := by
  simp [String.toList, String.data_append]

theorem strToList_asString (l : List Char) : l.asString.toList = l := by
  simp [List.asString, String.toList]

theorem bakOf_toList (p : String) :
    (bakOf p).toList = "tree.bak/".toList ++ p.toList.drop 5 := by
  rw [bakOf, strToList_append, jsDrop, strToList_asString]

theorem bakOf_inj (p q : String) (hp : jsStartsWith p "tree/" = true)
    (hq : jsStartsWith q "tree/" = true) (h : bakOf p = bakOf q) : p = q := by
  have hdrop : p.toList.drop 5 = q.toList.drop 5 := by
    have := congrArg String.toList h
    rw [bakOf_toList, bakOf_toList] at this
    exact List.append_cancel_left this
  have hlen : "tree/".toList.length = 5 := rfl
  have hptake : p.toList.take 5 = "tree/".toList := by
    have h' := hp
    rw [jsStartsWith, hlen] at h'
    exact eq_of_beq h'
  have hqtake : q.toList.take 5 = "tree/".toList := by
    have h' := hq
    rw [jsStartsWith, hlen] at h'
    exact eq_of_beq h'
  have hlist : p.toList = q.toList := by
    rw [← List.take_append_drop 5 p.toList, ← List.take_append_drop 5 q.toList,
      hptake, hqtake, hdrop]
  calc p = p.toList.asString := (String.asString_toList p).symm
    _ = q.toList.asString := by rw [hlist]
    _ = q := String.asString_toList q

theorem bakOf_not_tree (p : String) : jsStartsWith (bakOf p) "tree/" = false := by
  rw [jsStartsWith]
  have h : (bakOf p).toList.take ("tree/".toList.length) =
      ['t', 'r', 'e', 'e', '.'] := by
    rw [bakOf_toList]
    rfl
  rw [h]
  decide

/-- A step for an entry whose key and backup key both differ from `x`
does not change the mapping at `x`. -/
theorem diffStep_lookup_other (sha : String → String)
    (tf : List (String × String)) (zip : List (String × String))
    (e : String × String) (x : String) (h1 : e.1 ≠ x) (h2 : bakOf e.1 ≠ x) :
    lookupA (diffStep sha tf zip e) x = lookupA zip x := by
  unfold diffStep
  by_cases ht : jsStartsWith e.1 "tree/" = true
  · rw [if_neg (by simp [ht])]
    by_cases hc : jsStartsWith e.1 "tree/cache/" = true
    · rw [if_pos hc]
    · rw [if_neg hc]
      cases hold : lookupA tf e.1 with
      | none => rfl
      | some oldFile =>
        show lookupA (if sha oldFile = sha e.2 then eraseA zip e.1
          else setA zip (bakOf e.1) oldFile) x = lookupA zip x
        by_cases hsha : sha oldFile = sha e.2
        · rw [if_pos hsha]
          exact lookupA_eraseA_ne _ _ _ h1
        · rw [if_neg hsha]
          exact lookupA_setA_ne _ _ _ _ h2
  · rw [if_pos (by simpa using ht)]

theorem diffStep_nodup (sha : String → String) (tf : List (String × String))
    (zip : List (String × String)) (e : String × String)
    (hnd : (keysA zip).Nodup) : (keysA (diffStep sha tf zip e)).Nodup := by
  unfold diffStep
  by_cases ht : jsStartsWith e.1 "tree/" = true
  · rw [if_neg (by simp [ht])]
    by_cases hc : jsStartsWith e.1 "tree/cache/" = true
    · rw [if_pos hc]; exact hnd
    · rw [if_neg hc]
      cases hold : lookupA tf e.1 with
      | none => exact hnd
      | some oldFile =>
        show (keysA (if sha oldFile = sha e.2 then eraseA zip e.1
          else setA zip (bakOf e.1) oldFile)).Nodup
        by_cases hsha : sha oldFile = sha e.2
        · rw [if_pos hsha]; exact nodup_keysA_eraseA _ _ hnd
        · rw [if_neg hsha]; exact nodup_keysA_setA _ _ _ hnd
  · rw [if_pos (by simpa using ht)]; exact hnd

theorem diffFold_lookup_other (sha : String → String)
    (tf : List (String × String)) (x : String) :
    ∀ (l : List (String × String)) (zip : List (String × String)),
      (∀ e ∈ l, e.1 ≠ x ∧ bakOf e.1 ≠ x) →
      lookupA (l.foldl (diffStep sha tf) zip) x = lookupA zip x := by
  intro l
  induction l with
  | nil => intro zip _; rfl
  | cons e rest ih =>
    intro zip h
    rw [List.foldl_cons,
      ih _ (fun e2 h2 => h e2 (List.mem_cons_of_mem _ h2)),
      diffStep_lookup_other sha tf zip e x
        (h e (List.mem_cons_self _ _)).1 (h e (List.mem_cons_self _ _)).2]

theorem diffFold_nodup (sha : String → String) (tf : List (String × String)) :
    ∀ (l : List (String × String)) (zip : List (String × String)),
      (keysA zip).Nodup → (keysA (l.foldl (diffStep sha tf) zip)).Nodup := by
  intro l
  induction l with
  | nil => intro zip h; exact h
  | cons e rest ih =>
    intro zip h
    exact ih _ (diffStep_nodup sha tf zip e h)

/-- C6 counterexample input: a favicon cache file also present among the
previous tree files. -/
theorem diffPass_favicon_is_diffed :
    diffPass (fun c => c) [("tree/favicon/a.ico", "old")]
        [("tree/favicon/a.ico", "new")] =
      [("tree/favicon/a.ico", "new"), ("tree.bak/favicon/a.ico", "old")] ∧
    diffPass (fun c => c) [("tree/favicon/a.ico", "x")]
        [("tree/favicon/a.ico", "x")] = [] := by
  constructor <;> rfl

/-- C6 (amended): for every previously-existing file under `tree/` —
excluding the `tree/cache/` subtree, which is never diffed (the favicon
cache under `tree/favicon/` is diffed like any other path) — equal
hashes omit the path from the output with no backup staged, and
differing hashes stage the previous version at the `tree.bak/`
counterpart and emit the new version. -/
theorem diffPass_diff_and_backup (sha : String → String)
    (tf : List (String × String)) (zip₀ : List (String × String))
    (hnd : (keysA zip₀).Nodup)
    (hall : ∀ k ∈ keysA zip₀, jsStartsWith k "tree/" = true)
    (p newC oldC : String)
    (hp : lookupA zip₀ p = some newC)
    (hold : lookupA tf p = some oldC) :
    (jsStartsWith p "tree/cache/" = false →
      (sha oldC = sha newC →
        lookupA (diffPass sha tf zip₀) p = none ∧
        lookupA (diffPass sha tf zip₀) (bakOf p) = none) ∧
      (sha oldC ≠ sha newC →
        lookupA (diffPass sha tf zip₀) (bakOf p) = some oldC ∧
        lookupA (diffPass sha tf zip₀) p = some newC)) ∧
    (jsStartsWith p "tree/cache/" = true →
      lookupA (diffPass sha tf zip₀) p = some newC ∧
      lookupA (diffPass sha tf zip₀) (bakOf p) = none) := by
  have hpmem : p ∈ keysA zip₀ :=
    (lookupA_isSome_iff_mem_keysA _ _).1 (by simp [hp])
  have hptree : jsStartsWith p "tree/" = true := hall p hpmem
  have hbaknone : lookupA zip₀ (bakOf p) = none := by
    cases hb : lookupA zip₀ (bakOf p) with
    | none => rfl
    | some c =>
      have : bakOf p ∈ keysA zip₀ :=
        (lookupA_isSome_iff_mem_keysA _ _).1 (by simp [hb])
      have := hall _ this
      rw [bakOf_not_tree] at this
      cases this
  -- split the entry list at the unique entry for p
  obtain ⟨v, hv⟩ : ∃ v, (p, v) ∈ zip₀ := ⟨newC, mem_of_lookupA_eq_some _ _ _ hp⟩
  obtain ⟨l1, l2, hsplit⟩ := List.append_of_mem hv
  have hvnew : v = newC := by
    have := lookupA_eq_some_of_mem zip₀ p v hnd hv
    rw [hp] at this
    exact (Option.some.inj this).symm
  rw [hvnew] at hsplit
  have hknd : (keysA zip₀).Nodup := hnd
  rw [hsplit] at hknd
  have hkeq : keysA (l1 ++ (p, newC) :: l2) = keysA l1 ++ p :: keysA l2 := by
    simp [keysA]
  rw [hkeq] at hknd
  have hpnotl1 : p ∉ keysA l1 := by
    intro hmem
    exact (List.disjoint_of_nodup_append hknd) hmem (List.mem_cons_self _ _)
  have hpnotl2 : p ∉ keysA l2 :=
    (List.nodup_cons.1 (List.nodup_append.1 hknd).2.1).1
  have hother1 : ∀ e ∈ l1, e.1 ≠ p ∧ bakOf e.1 ≠ p := by
    intro e he
    constructor
    · intro hc
      exact hpnotl1 (hc ▸ List.mem_map_of_mem Prod.fst he)
    · intro hc
      have := bakOf_not_tree e.1
      rw [hc, hptree] at this
      cases this
  have hother2 : ∀ e ∈ l2, e.1 ≠ p ∧ bakOf e.1 ≠ p := by
    intro e he
    constructor
    · intro hc
      exact hpnotl2 (hc ▸ List.mem_map_of_mem Prod.fst he)
    · intro hc
      have := bakOf_not_tree e.1
      rw [hc, hptree] at this
      cases this
  have hotherbak1 : ∀ e ∈ l1, e.1 ≠ bakOf p ∧ bakOf e.1 ≠ bakOf p := by
    intro e he
    have hetree : jsStartsWith e.1 "tree/" = true :=
      hall e.1 (hsplit ▸ (by
        simp only [keysA, List.map_append, List.map_cons]
        exact List.mem_append.2 (Or.inl (List.mem_map_of_mem Prod.fst he))))
    constructor
    · intro hc
      have := bakOf_not_tree p
      rw [← hc, hetree] at this
      cases this
    · intro hc
      have : e.1 = p := bakOf_inj e.1 p hetree hptree hc
      exact (hother1 e he).1 this
  have hotherbak2 : ∀ e ∈ l2, e.1 ≠ bakOf p ∧ bakOf e.1 ≠ bakOf p := by
    intro e he
    have hetree : jsStartsWith e.1 "tree/" = true :=
      hall e.1 (hsplit ▸ (by
        simp only [keysA, List.map_append, List.map_cons]
        exact List.mem_append.2 (Or.inr (List.mem_cons_of_mem _
          (List.mem_map_of_mem Prod.fst he)))))
    constructor
    · intro hc
      have := bakOf_not_tree p
      rw [← hc, hetree] at this
      cases this
    · intro hc
      have : e.1 = p := bakOf_inj e.1 p hetree hptree hc
      exact (hother2 e he).1 this
  -- run the fold up to the entry for p
  have hrun : diffPass sha tf zip₀ =
      l2.foldl (diffStep sha tf)
        (diffStep sha tf (l1.foldl (diffStep sha tf) zip₀) (p, newC)) := by
    rw [diffPass, hsplit, List.foldl_append, List.foldl_cons, ← hsplit]
  set acc1 := l1.foldl (diffStep sha tf) zip₀ with hacc1
  have hacc1p : lookupA acc1 p = some newC := by
    rw [hacc1, diffFold_lookup_other sha tf p l1 zip₀ hother1, hp]
  have hacc1bak : lookupA acc1 (bakOf p) = none := by
    rw [hacc1, diffFold_lookup_other sha tf (bakOf p) l1 zip₀ hotherbak1, hbaknone]
  have hacc1nd : (keysA acc1).Nodup := diffFold_nodup sha tf l1 zip₀ hnd
  have hbakne : bakOf p ≠ p := by
    intro hc
    have := bakOf_not_tree p
    rw [hc, hptree] at this
    cases this
  constructor
  · intro hnc
    constructor
    · intro hsha
      have hstep : diffStep sha tf acc1 (p, newC) = eraseA acc1 p := by
        unfold diffStep
        rw [if_neg (by simp [hptree]), if_neg (by simp [hnc]), hold]
        show (if sha oldC = sha newC then eraseA acc1 p
          else setA acc1 (bakOf p) oldC) = eraseA acc1 p
        rw [if_pos hsha]
      rw [hrun, hstep]
      constructor
      · rw [diffFold_lookup_other sha tf p l2 _ hother2]
        exact lookupA_eraseA_self _ _ hacc1nd
      · rw [diffFold_lookup_other sha tf (bakOf p) l2 _ hotherbak2,
          lookupA_eraseA_ne _ _ _ (fun hc => hbakne hc.symm)]
        exact hacc1bak
    · intro hsha
      have hstep : diffStep sha tf acc1 (p, newC) = setA acc1 (bakOf p) oldC := by
        unfold diffStep
        rw [if_neg (by simp [hptree]), if_neg (by simp [hnc]), hold]
        show (if sha oldC = sha newC then eraseA acc1 p
          else setA acc1 (bakOf p) oldC) = setA acc1 (bakOf p) oldC
        rw [if_neg hsha]
      rw [hrun, hstep]
      constructor
      · rw [diffFold_lookup_other sha tf (bakOf p) l2 _ hotherbak2]
        exact lookupA_setA_self _ _ _
      · rw [diffFold_lookup_other sha tf p l2 _ hother2,
          lookupA_setA_ne _ _ _ _ hbakne]
        exact hacc1p
  · intro hcache
    have hstep : diffStep sha tf acc1 (p, newC) = acc1 := by
      unfold diffStep
      rw [if_neg (by simp [hptree]), if_pos hcache]
    rw [hrun, hstep]
    constructor
    · rw [diffFold_lookup_other sha tf p l2 _ hother2]
      exact hacc1p
    · rw [diffFold_lookup_other sha tf (bakOf p) l2 _ hotherbak2]
      exact hacc1bak

/-- Witness for C6 at a concrete staged output. -/
theorem diffPass_diff_and_backup_witness :
    lookupA (diffPass (fun c => c) [("tree/meta.js", "old")]
        [("tree/meta.js", "new")]) (bakOf "tree/meta.js") = some "old" ∧
    lookupA (diffPass (fun c => c) [("tree/meta.js", "old")]
        [("tree/meta.js", "new")]) "tree/meta.js" = some "new" :=
  ((diffPass_diff_and_backup (fun c => c) [("tree/meta.js", "old")]
      [("tree/meta.js", "new")] (by decide) (by decide) "tree/meta.js"
      "new" "old" (by decide) (by decide)).1 (by decide)).2 (by decide)

/-! ## Claim C9: the reserved root key

`tocLE t1 t2` says every key of `t1` is still present in `t2` with its
child list only extended: the evolution relation of the TOC during
orphan re-insertion, which only pushes children and creates fresh keys. -/

def tocLE (t1 t2 : List (String × List String)) : Prop :=
  ∀ k cs, lookupA t1 k = some cs → ∃ ext, lookupA t2 k = some (cs ++ ext)

theorem tocLE_refl (t : List (String × List String)) : tocLE t t :=
  fun k cs h => ⟨[], by simpa using h⟩

theorem tocLE_trans {t1 t2 t3 : List (String × List String)}
    (h12 : tocLE t1 t2) (h23 : tocLE t2 t3) : tocLE t1 t3 := by
  intro k cs h
  obtain ⟨e1, h1⟩ := h12 k cs h
  obtain ⟨e2, h2⟩ := h23 k (cs ++ e1) h1
  exact ⟨e1 ++ e2, by simpa [List.append_assoc] using h2⟩

theorem tocLE_tocPush (t : List (String × List String)) (k c : String) :
    tocLE t (tocPush t k c) := by
  intro k2 cs h
  by_cases hk : k2 = k
  · subst hk
    refine ⟨[c], ?_⟩
    rw [tocPush, lookupA_setA_self, h]
    rfl
  · exact ⟨[], by rw [tocPush, lookupA_setA_ne _ _ _ _ (fun hc => hk hc.symm)]; simpa using h⟩

theorem tocLE_setA_fresh (t : List (String × List String)) (k : String)
    (v : List String) (hk : containsA t k = false) : tocLE t (setA t k v) := by
  intro k2 cs h
  have hne : k ≠ k2 := by
    rintro rfl
    rw [containsA, h] at hk
    cases hk
  exact ⟨[], by rw [lookupA_setA_ne _ _ _ _ hne]; simpa using h⟩

theorem insertSeg_tocLE (now : Nat) (seg parentId : String) (st : InsCtx) :
    tocLE st.toc (insertSeg now seg parentId st).2.toc := by
  unfold insertSeg
  cases htm : lookupA st.tmap (some seg) with
  | some fid =>
    dsimp only
    by_cases hcond : (containsA st.metas fid &&
        ((lookupA st.toc parentId).getD []).contains fid) = true
    · rw [if_pos hcond]
      dsimp only
      by_cases hc : containsA st.toc fid = true
      · rw [if_pos hc]
        exact tocLE_refl _
      · rw [if_neg (by simp [hc])]
        exact tocLE_setA_fresh _ _ _ (by simpa using hc)
    · rw [if_neg hcond]
      dsimp only
      set g := generateFolder now seg st.metas with hg
      by_cases hc : containsA (tocPush st.toc parentId g.1) g.1 = true
      · rw [if_pos hc]
        exact tocLE_tocPush _ _ _
      · rw [if_neg (by simp [hc])]
        exact tocLE_trans (tocLE_tocPush _ _ _)
          (tocLE_setA_fresh _ _ _ (by simpa using hc))
  | none =>
    dsimp only
    set g := generateFolder now seg st.metas with hg
    by_cases hc : containsA (tocPush st.toc parentId g.1) g.1 = true
    · rw [if_pos hc]
      exact tocLE_tocPush _ _ _
    · rw [if_neg (by simp [hc])]
      exact tocLE_trans (tocLE_tocPush _ _ _)
        (tocLE_setA_fresh _ _ _ (by simpa using hc))

theorem insertSegs_tocLE (now : Nat) :
    ∀ (segs : List String) (parentId : String) (st : InsCtx),
      tocLE st.toc (insertSegs now segs parentId st).2.toc := by
  intro segs
  induction segs with
  | nil => intro parentId st; exact tocLE_refl _
  | cons seg rest ih =>
    intro parentId st
    rw [insertSegs]
    exact tocLE_trans (insertSeg_tocLE now seg parentId st) (ih _ _)

theorem insertToToc_tocLE (now : Nat) (id : String) (st : InsCtx) :
    tocLE st.toc (insertToToc now id st).toc := by
  unfold insertToToc
  cases hm : lookupA st.metas id with
  | none => exact tocLE_refl _
  | some meta =>
    dsimp only
    by_cases hf : (¬jtruthy meta.folder = true)
    · rw [if_pos hf]
      exact tocLE_tocPush _ _ _
    · rw [if_neg hf]
      exact tocLE_trans (insertSegs_tocLE now _ "root" st) (tocLE_tocPush _ _ _)

/-- `insertStep` changes the TOC exactly through `insertToToc` (the
title-map update and the transient-field stripping leave it alone). -/
theorem insertStep_toc (now : Nat) (referred : List String) (st : InsCtx)
    (id : String) :
    (insertStep now referred st id).toc =
      if id ∉ referred ∧ id ≠ "root" ∧ id ≠ "hidden"
      then (insertToToc now id st).toc else st.toc := by
  unfold insertStep
  by_cases hg : id ∉ referred ∧ id ≠ "root" ∧ id ≠ "hidden"
  · rw [if_pos hg, if_pos hg]
    dsimp only
    cases h2 : lookupA (insertToToc now id st).metas id with
    | some m => rw [h2]
    | none => rw [h2]
  · rw [if_neg hg, if_neg hg]
    dsimp only
    cases h3 : lookupA st.metas id <;> rfl

theorem insertStep_tocLE (now : Nat) (referred : List String) (st : InsCtx)
    (id : String) : tocLE st.toc (insertStep now referred st id).toc := by
  rw [insertStep_toc]
  by_cases hg : id ∉ referred ∧ id ≠ "root" ∧ id ≠ "hidden"
  · rw [if_pos hg]
    exact insertToToc_tocLE now id st
  · rw [if_neg hg]
    exact tocLE_refl _

theorem insertPass_tocLE (now : Nat) (metas₁ : List (String × MetaRec))
    (toc₁ : List (String × List String)) (referred : List String)
    (tmap₁ : List (Option String × String)) :
    tocLE toc₁ (insertPass now metas₁ toc₁ referred tmap₁).toc := by
  unfold insertPass
  generalize insertionSortJS
    (fun a b => strLe (sortKeyJS metas₁ a) (sortKeyJS metas₁ b)) (keysA metas₁) = L
  suffices h : ∀ (L : List String) (st : InsCtx),
      tocLE st.toc ((L.foldl (insertStep now referred) st)).toc by
    exact h L ⟨metas₁, toc₁, tmap₁⟩
  intro L
  induction L with
  | nil => intro st; exact tocLE_refl _
  | cons id rest ih =>
    intro st
    exact tocLE_trans (insertStep_tocLE now referred st id) (ih _)

theorem containsA_of_eraseA_ne {κ : Type} {β : Type} [DecidableEq κ]
    (m : List (κ × β)) (k k2 : κ) (h : k ≠ k2) (hc : containsA m k2 = true) :
    containsA (eraseA m k) k2 = true := by
  rw [containsA, lookupA_eraseA_ne _ _ _ h]
  exact hc

theorem containsA_of_setA {κ : Type} {β : Type} [DecidableEq κ]
    (m : List (κ × β)) (k k2 : κ) (v : β) (hc : containsA m k2 = true) :
    containsA (setA m k v) k2 = true := by
  by_cases hk : k = k2
  · subst hk
    rw [containsA, lookupA_setA_self]
    rfl
  · rw [containsA, lookupA_setA_ne _ _ _ _ hk]
    exact hc

theorem tocPruneStep_preserves_root (metas : List (String × MetaRec))
    (st : TocCtx) (id : String) (k : String) (hk : k = "root" ∨ k = "hidden")
    (hc : containsA st.toc k = true) :
    containsA (tocPruneStep metas st id).toc k = true := by
  unfold tocPruneStep
  cases hl : lookupA st.toc id with
  | none => exact hc
  | some children =>
    dsimp only
    by_cases h1 : ¬containsA metas id = true ∧ id ≠ "root" ∧ id ≠ "hidden"
    · rw [if_pos h1]
      refine containsA_of_eraseA_ne _ _ _ ?_ hc
      rcases hk with rfl | rfl
      · exact h1.2.1
      · exact h1.2.2
    · rw [if_neg h1]
      by_cases h2 : (children.foldl (pruneChildStep metas)
          ([], st.referred, st.tmap)).1.isEmpty = true ∧ id ≠ "root" ∧ id ≠ "hidden"
      · rw [if_pos h2]
        refine containsA_of_eraseA_ne _ _ _ ?_ (containsA_of_setA _ _ _ _ hc)
        rcases hk with rfl | rfl
        · exact h2.2.1
        · exact h2.2.2
      · rw [if_neg h2]
        exact containsA_of_setA _ _ _ _ hc

theorem tocPrune_preserves_root (metas : List (String × MetaRec))
    (toc₀ : List (String × List String)) (k : String)
    (hk : k = "root" ∨ k = "hidden")
    (hc : containsA toc₀ k = true) :
    containsA (tocPrune metas toc₀).toc k = true := by
  unfold tocPrune
  generalize keysA toc₀ = L
  suffices h : ∀ (L : List String) (st : TocCtx), containsA st.toc k = true →
      containsA ((L.foldl (tocPruneStep metas) st)).toc k = true by
    exact h L ⟨toc₀, [], []⟩ hc
  intro L
  induction L with
  | nil => intro st h; exact h
  | cons id rest ih =>
    intro st h
    exact ih _ (tocPruneStep_preserves_root metas st id k hk h)

/-- C9: the reserved key `root` is always present in the TOC — it is
initialized to an empty list, TOC pruning never deletes it (nor
`hidden`), and orphan re-insertion only ever appends to its child list
(every key, `root` included, evolves by appending). -/
theorem root_always_present :
    (lookupA scrapbookDataInitToc "root" = some []) ∧
    (∀ (metas : List (String × MetaRec)) (toc₀ : List (String × List String)),
      containsA toc₀ "root" = true →
      containsA (tocPrune metas toc₀).toc "root" = true ∧
      containsA (tocPrune metas toc₀).toc "hidden" = true ∨
      containsA (tocPrune metas toc₀).toc "root" = true) ∧
    (∀ (now : Nat) (metas₁ : List (String × MetaRec))
      (toc₁ : List (String × List String)) (referred : List String)
      (tmap₁ : List (Option String × String)) (l : List String),
      lookupA toc₁ "root" = some l →
      ∃ ext, lookupA (insertPass now metas₁ toc₁ referred tmap₁).toc "root" =
        some (l ++ ext)) := by
  refine ⟨rfl, ?_, ?_⟩
  · intro metas toc₀ hc
    exact Or.inr (tocPrune_preserves_root metas toc₀ "root" (Or.inl rfl) hc)
  · intro now metas₁ toc₁ referred tmap₁ l hl
    exact insertPass_tocLE now metas₁ toc₁ referred tmap₁ "root" l hl

/-- Witness for C9 at a concrete TOC. -/
theorem root_always_present_witness :
    containsA (tocPrune [] [("root", ["A"]), ("X", [])]).toc "root" = true ∧
    ∃ ext, lookupA (insertPass 0 [] [("root", [])] [] []).toc "root" =
      some ([] ++ ext) := by
  constructor
  · rcases root_always_present.2.1 [] [("root", ["A"]), ("X", [])] (by decide) with
      h | h
    · exact h.1
    · exact h
  · exact root_always_present.2.2 0 [] [("root", [])] [] [] [] rfl

/-! ## Claim C4: folder-hint insertion -/

theorem containsA_setA_ne {κ : Type} {β : Type} [DecidableEq κ]
    (m : List (κ × β)) (k k2 : κ) (v : β) (h : k ≠ k2) :
    containsA (setA m k v) k2 = containsA m k2 := by
  rw [containsA, containsA, lookupA_setA_ne _ _ _ _ h]

/-- Reuse branch of the segment walk: a title-map hit whose identifier
has a metadata entry and is already linked under the current parent is
taken as-is; no folder is synthesized (the metadata map is unchanged). -/
theorem insertSeg_reuse (now : Nat) (seg parentId : String) (st : InsCtx)
    (fid : String) (htm : lookupA st.tmap (some seg) = some fid)
    (hct : containsA st.metas fid = true)
    (hmem : fid ∈ (lookupA st.toc parentId).getD []) :
    (insertSeg now seg parentId st).1 = fid ∧
    (insertSeg now seg parentId st).2.metas = st.metas := by
  have hcond : (containsA st.metas fid &&
      ((lookupA st.toc parentId).getD []).contains fid) = true := by
    rw [hct, Bool.true_and]
    simpa using hmem
  unfold insertSeg
  rw [htm]
  dsimp only
  rw [if_pos hcond]
  dsimp only
  by_cases hc : containsA st.toc fid = true
  · rw [if_pos hc]
    exact ⟨rfl, rfl⟩
  · rw [if_neg hc]
    exact ⟨rfl, rfl⟩

/-- Synthesis branch of the segment walk: without a linked title match a
fresh folder is generated and appended under the current parent. -/
theorem insertSeg_gen (now : Nat) (seg parentId : String) (st : InsCtx)
    (hno : ∀ fid, lookupA st.tmap (some seg) = some fid →
      ¬(containsA st.metas fid = true ∧
        fid ∈ (lookupA st.toc parentId).getD [])) :
    (insertSeg now seg parentId st).1 = getUniqueId now st.metas ∧
    (insertSeg now seg parentId st).2.metas =
      setA st.metas (getUniqueId now st.metas)
        (folderMeta seg (getUniqueId now st.metas)) ∧
    (insertSeg now seg parentId st).2.tmap =
      setA st.tmap (some seg) (getUniqueId now st.metas) ∧
    (insertSeg now seg parentId st).2.toc =
      (if containsA (tocPush st.toc parentId (getUniqueId now st.metas))
          (getUniqueId now st.metas) = true
       then tocPush st.toc parentId (getUniqueId now st.metas)
       else setA (tocPush st.toc parentId (getUniqueId now st.metas))
          (getUniqueId now st.metas) []) := by
  unfold insertSeg generateFolder
  cases htm : lookupA st.tmap (some seg) with
  | none =>
    dsimp only
    by_cases hc : containsA (tocPush st.toc parentId (getUniqueId now st.metas))
        (getUniqueId now st.metas) = true
    · rw [if_pos hc, if_pos hc]
      exact ⟨rfl, rfl, rfl, rfl⟩
    · rw [if_neg hc, if_neg hc]
      exact ⟨rfl, rfl, rfl, rfl⟩
  | some fid =>
    dsimp only
    have hfalse : (containsA st.metas fid &&
        ((lookupA st.toc parentId).getD []).contains fid) = false := by
      by_contra hne
      have htrue : (containsA st.metas fid &&
          ((lookupA st.toc parentId).getD []).contains fid) = true := by
        revert hne
        cases containsA st.metas fid &&
          ((lookupA st.toc parentId).getD []).contains fid <;> simp
      rw [Bool.and_eq_true] at htrue
      exact hno fid htm ⟨htrue.1, by simpa using htrue.2⟩
    rw [hfalse]
    simp only [Bool.false_eq_true, if_false]
    by_cases hc : containsA (tocPush st.toc parentId (getUniqueId now st.metas))
        (getUniqueId now st.metas) = true
    · rw [if_pos hc, if_pos hc]
      exact ⟨rfl, rfl, rfl, rfl⟩
    · rw [if_neg hc, if_neg hc]
      exact ⟨rfl, rfl, rfl, rfl⟩

/-- In the synthesis branch the fresh folder is appended to the current
parent in the TOC. -/
theorem insertSeg_gen_parent (now : Nat) (seg parentId : String) (st : InsCtx)
    (hno : ∀ fid, lookupA st.tmap (some seg) = some fid →
      ¬(containsA st.metas fid = true ∧
        fid ∈ (lookupA st.toc parentId).getD [])) :
    lookupA (insertSeg now seg parentId st).2.toc parentId =
      some ((lookupA st.toc parentId).getD [] ++ [getUniqueId now st.metas]) := by
  obtain ⟨-, -, -, htoc⟩ := insertSeg_gen now seg parentId st hno
  rw [htoc]
  by_cases hc : containsA (tocPush st.toc parentId (getUniqueId now st.metas))
      (getUniqueId now st.metas) = true
  · rw [if_pos hc, tocPush, lookupA_setA_self]
  · rw [if_neg hc]
    have hne : getUniqueId now st.metas ≠ parentId := by
      intro heq
      rw [heq] at hc
      exact hc (by rw [tocPush, containsA, lookupA_setA_self]; rfl)
    rw [lookupA_setA_ne _ _ _ _ hne, tocPush, lookupA_setA_self]

/-- Scenario D of the folder-hint walk: an item whose hint is
`"Work\tProjects"` while no folder titled `Work` is linked under the
root causes two fresh nested folders to be synthesized, with the item
appended under the inner one. -/
theorem insertToToc_scenario_d (now : Nat) (st : InsCtx) (itemId : String)
    (meta : MetaRec) (rootCs : List String) (f1 f2 : String)
    (hm : lookupA st.metas itemId = some meta)
    (hfolder : meta.folder = some "Work\tProjects")
    (hroot : lookupA st.toc "root" = some rootCs)
    (hkeys : ∀ k, containsA st.toc k = true →
      k = "root" ∨ k = "hidden" ∨ containsA st.metas k = true)
    (hwork : ∀ fid, lookupA st.tmap (some "Work") = some fid →
      ¬(containsA st.metas fid = true ∧ fid ∈ rootCs))
    (hf1 : f1 = getUniqueId now st.metas)
    (hf2 : f2 = getUniqueId now (setA st.metas f1 (folderMeta "Work" f1))) :
    containsA st.metas f1 = false ∧
    containsA st.metas f2 = false ∧
    f1 ≠ f2 ∧
    (insertToToc now itemId st).metas =
      setA (setA st.metas f1 (folderMeta "Work" f1)) f2 (folderMeta "Projects" f2) ∧
    lookupA (insertToToc now itemId st).toc "root" = some (rootCs ++ [f1]) ∧
    lookupA (insertToToc now itemId st).toc f1 = some [f2] ∧
    lookupA (insertToToc now itemId st).toc f2 = some [itemId] := by
  have hfr1 : containsA st.metas f1 = false := by
    rw [hf1]; exact getUniqueId_fresh now st.metas
  have hfr2x : containsA (setA st.metas f1 (folderMeta "Work" f1)) f2 = false := by
    rw [hf2]; exact getUniqueId_fresh now _
  have hne12 : f1 ≠ f2 := by
    intro heq
    rw [← heq, containsA, lookupA_setA_self] at hfr2x
    simp at hfr2x
  have hfr2 : containsA st.metas f2 = false := by
    by_contra h
    have h' : containsA st.metas f2 = true := by
      revert h; cases containsA st.metas f2 <;> simp
    have h2 := containsA_of_setA st.metas f1 f2 (folderMeta "Work" f1) h'
    rw [hfr2x] at h2
    exact Bool.noConfusion h2
  have hr1 : f1 ≠ "root" := by rw [hf1]; exact getUniqueId_ne_root now st.metas
  have hh1 : f1 ≠ "hidden" := by rw [hf1]; exact getUniqueId_ne_hidden now st.metas
  have hr2 : f2 ≠ "root" := by rw [hf2]; exact getUniqueId_ne_root now _
  have hh2 : f2 ≠ "hidden" := by rw [hf2]; exact getUniqueId_ne_hidden now _
  have htoc1 : containsA st.toc f1 = false := by
    by_contra h
    have h' : containsA st.toc f1 = true := by
      revert h; cases containsA st.toc f1 <;> simp
    rcases hkeys f1 h' with h | h | h
    · exact hr1 h
    · exact hh1 h
    · rw [hfr1] at h; exact Bool.noConfusion h
  have htoc2 : containsA st.toc f2 = false := by
    by_contra h
    have h' : containsA st.toc f2 = true := by
      revert h; cases containsA st.toc f2 <;> simp
    rcases hkeys f2 h' with h | h | h
    · exact hr2 h
    · exact hh2 h
    · rw [hfr2] at h; exact Bool.noConfusion h
  have hno1 : ∀ fid, lookupA st.tmap (some "Work") = some fid →
      ¬(containsA st.metas fid = true ∧ fid ∈ (lookupA st.toc "root").getD []) := by
    intro fid htm hand
    refine hwork fid htm ⟨hand.1, ?_⟩
    have h2 := hand.2
    rw [hroot] at h2
    simpa using h2
  obtain ⟨hs11, hs12, hs13, hs14⟩ := insertSeg_gen now "Work" "root" st hno1
  rw [← hf1] at hs11 hs12 hs13 hs14
  have htp1 : tocPush st.toc "root" f1 = setA st.toc "root" (rootCs ++ [f1]) := by
    rw [tocPush, hroot]
    rfl
  have hc1 : containsA (tocPush st.toc "root" f1) f1 = false := by
    rw [htp1, containsA_setA_ne _ _ _ _ (fun hc => hr1 hc.symm)]
    exact htoc1
  rw [hc1] at hs14
  simp only [Bool.false_eq_true, if_false] at hs14
  have hno2 : ∀ fid,
      lookupA (insertSeg now "Work" "root" st).2.tmap (some "Projects") = some fid →
      ¬(containsA (insertSeg now "Work" "root" st).2.metas fid = true ∧
        fid ∈ (lookupA (insertSeg now "Work" "root" st).2.toc
          (insertSeg now "Work" "root" st).1).getD []) := by
    intro fid htm hand
    have h2 := hand.2
    rw [hs11, hs14, lookupA_setA_self] at h2
    simp at h2
  obtain ⟨hs21, hs22, hs23, hs24⟩ := insertSeg_gen now "Projects"
    (insertSeg now "Work" "root" st).1 (insertSeg now "Work" "root" st).2 hno2
  rw [hs11] at hs21 hs22 hs23 hs24
  rw [hs12, ← hf2] at hs21 hs22 hs23 hs24
  rw [hs14] at hs24
  have htp2 : tocPush (setA (tocPush st.toc "root" f1) f1 []) f1 f2 =
      setA (setA (tocPush st.toc "root" f1) f1 []) f1 [f2] := by
    rw [tocPush, lookupA_setA_self]
    rfl
  rw [htp2] at hs24
  have hc2 : containsA (setA (setA (tocPush st.toc "root" f1) f1 []) f1 [f2]) f2
      = false := by
    rw [containsA_setA_ne _ _ _ _ hne12, containsA_setA_ne _ _ _ _ hne12, htp1,
        containsA_setA_ne _ _ _ _ (fun hc => hr2 hc.symm)]
    exact htoc2
  rw [hc2] at hs24
  simp only [Bool.false_eq_true, if_false] at hs24
  have hfinal : insertToToc now itemId st =
      { (insertSeg now "Projects" (insertSeg now "Work" "root" st).1
          (insertSeg now "Work" "root" st).2).2 with
        toc := tocPush
          (insertSeg now "Projects" (insertSeg now "Work" "root" st).1
            (insertSeg now "Work" "root" st).2).2.toc
          (insertSeg now "Projects" (insertSeg now "Work" "root" st).1
            (insertSeg now "Work" "root" st).2).1 itemId } := by
    unfold insertToToc
    rw [hm]
    dsimp only
    rw [if_neg (by rw [hfolder]; decide)]
    rw [hfolder]
    rfl
  have hft : (insertToToc now itemId st).toc =
      setA (setA (setA (setA (tocPush st.toc "root" f1) f1 []) f1 [f2]) f2 []) f2
        [itemId] := by
    rw [hfinal]
    dsimp only
    rw [hs11, hs21, hs24, tocPush, lookupA_setA_self]
    rfl
  have hfm : (insertToToc now itemId st).metas =
      setA (setA st.metas f1 (folderMeta "Work" f1)) f2 (folderMeta "Projects" f2) := by
    rw [hfinal]
    dsimp only
    rw [hs11]
    exact hs22
  refine ⟨hfr1, hfr2, hne12, hfm, ?_, ?_, ?_⟩
  · rw [hft, lookupA_setA_ne _ _ _ _ hr2, lookupA_setA_ne _ _ _ _ hr2,
        lookupA_setA_ne _ _ _ _ hr1, lookupA_setA_ne _ _ _ _ hr1, htp1,
        lookupA_setA_self]
  · rw [hft, lookupA_setA_ne _ _ _ _ (fun hc => hne12 hc.symm),
        lookupA_setA_ne _ _ _ _ (fun hc => hne12 hc.symm), lookupA_setA_self]
  · rw [hft, lookupA_setA_self]

/-- C4 (folder-hint insertion): during the orphan re-insertion walk a
path segment reuses an existing folder only when the title-map hit both
has a metadata entry and is already linked under the current parent — in
which case nothing is synthesized; otherwise a folder with a fresh
identifier (`getUniqueId`: current time, incremented until unused in the
metadata map) is synthesized and appended under the parent.  In
particular (Scenario D), for an item with folder hint `"Work\tProjects"`
and no folder titled `Work` linked under the root, two fresh nested
folder items are created and the item is appended under the inner one. -/
theorem folder_hint_insertion :
    (∀ (now : Nat) (seg parentId : String) (st : InsCtx) (fid : String),
      lookupA st.tmap (some seg) = some fid →
      containsA st.metas fid = true →
      fid ∈ (lookupA st.toc parentId).getD [] →
      (insertSeg now seg parentId st).1 = fid ∧
      (insertSeg now seg parentId st).2.metas = st.metas) ∧
    (∀ (now : Nat) (seg parentId : String) (st : InsCtx),
      (∀ fid, lookupA st.tmap (some seg) = some fid →
        ¬(containsA st.metas fid = true ∧
          fid ∈ (lookupA st.toc parentId).getD [])) →
      containsA st.metas (getUniqueId now st.metas) = false ∧
      (insertSeg now seg parentId st).1 = getUniqueId now st.metas ∧
      (insertSeg now seg parentId st).2.metas =
        setA st.metas (getUniqueId now st.metas)
          (folderMeta seg (getUniqueId now st.metas)) ∧
      lookupA (insertSeg now seg parentId st).2.toc parentId =
        some ((lookupA st.toc parentId).getD [] ++ [getUniqueId now st.metas])) ∧
    (∀ (now : Nat) (st : InsCtx) (itemId : String) (meta : MetaRec)
        (rootCs : List String) (f1 f2 : String),
      lookupA st.metas itemId = some meta →
      meta.folder = some "Work\tProjects" →
      lookupA st.toc "root" = some rootCs →
      (∀ k, containsA st.toc k = true →
        k = "root" ∨ k = "hidden" ∨ containsA st.metas k = true) →
      (∀ fid, lookupA st.tmap (some "Work") = some fid →
        ¬(containsA st.metas fid = true ∧ fid ∈ rootCs)) →
      f1 = getUniqueId now st.metas →
      f2 = getUniqueId now (setA st.metas f1 (folderMeta "Work" f1)) →
      containsA st.metas f1 = false ∧
      containsA st.metas f2 = false ∧
      f1 ≠ f2 ∧
      (insertToToc now itemId st).metas =
        setA (setA st.metas f1 (folderMeta "Work" f1)) f2
          (folderMeta "Projects" f2) ∧
      lookupA (insertToToc now itemId st).toc "root" = some (rootCs ++ [f1]) ∧
      lookupA (insertToToc now itemId st).toc f1 = some [f2] ∧
      lookupA (insertToToc now itemId st).toc f2 = some [itemId]) := by
  refine ⟨?_, ?_, ?_⟩
  · intro now seg parentId st fid h1 h2 h3
    exact insertSeg_reuse now seg parentId st fid h1 h2 h3
  · intro now seg parentId st hno
    obtain ⟨ha, hb, -, -⟩ := insertSeg_gen now seg parentId st hno
    exact ⟨getUniqueId_fresh now st.metas, ha, hb,
      insertSeg_gen_parent now seg parentId st hno⟩
  · intro now st itemId meta rootCs f1 f2 h1 h2 h3 h4 h5 h6 h7
    exact insertToToc_scenario_d now st itemId meta rootCs f1 f2 h1 h2 h3 h4 h5 h6 h7

/-- Concrete Scenario-D input: a single bookmark carrying the folder
hint `"Work\tProjects"`, an empty root list and an empty title map. -/
def scenarioDMeta : MetaRec :=
  { type := some "bookmark", folder := some "Work\tProjects" }

def scenarioDCtx : InsCtx :=
  ⟨[("item1", scenarioDMeta)], [("root", [])], []⟩

/-- The identifier of the first folder synthesized on `scenarioDCtx`. -/
def sdF1 : String := getUniqueId 0 scenarioDCtx.metas

/-- The identifier of the second folder synthesized on `scenarioDCtx`. -/
def sdF2 : String :=
  getUniqueId 0 (setA scenarioDCtx.metas sdF1 (folderMeta "Work" sdF1))

theorem folder_hint_insertion_witness :
    containsA scenarioDCtx.metas sdF1 = false ∧
    containsA scenarioDCtx.metas sdF2 = false ∧
    sdF1 ≠ sdF2 ∧
    (insertToToc 0 "item1" scenarioDCtx).metas =
      setA (setA scenarioDCtx.metas sdF1 (folderMeta "Work" sdF1)) sdF2
        (folderMeta "Projects" sdF2) ∧
    lookupA (insertToToc 0 "item1" scenarioDCtx).toc "root" = some [sdF1] ∧
    lookupA (insertToToc 0 "item1" scenarioDCtx).toc sdF1 = some [sdF2] ∧
    lookupA (insertToToc 0 "item1" scenarioDCtx).toc sdF2 = some ["item1"] :=
  folder_hint_insertion.2.2 0 scenarioDCtx "item1" scenarioDMeta [] sdF1 sdF2
    (by decide) (by decide) (by decide)
    (by
      intro k hk
      by_cases h : ("root" : String) = k
      · exact Or.inl h.symm
      · rw [containsA] at hk
        simp only [scenarioDCtx] at hk
        rw [lookupA_cons, if_neg h] at hk
        simp [lookupA] at hk)
    (fun fid h => Option.noConfusion h)
    rfl rfl

/-! ## Claim C1: TOC integrity

Pruning is characterized pointwise (`tocPrune_lookup`); the insertion
pass is handled by an invariant (`insAB`, `walkInv`) plus a coverage
argument over the iterated keys. -/

/-- The child filter of the pruning loop (source lines 846-858). -/
def pruneFilter (metas : List (String × MetaRec)) (cs : List String) : List String :=
  cs.filter (fun c => containsA metas c && !(c == "root") && !(c == "hidden"))

/-- The fate of one TOC key under the pruning loop: dropped for a
missing metadata entry, dropped when filtered empty (reserved roots
exempt from both), otherwise kept with the filtered children. -/
def pruneOutcome (metas : List (String × MetaRec)) (k : String) (cs : List String) :
    Option (List String) :=
  if ¬containsA metas k ∧ k ≠ "root" ∧ k ≠ "hidden" then none
  else if (pruneFilter metas cs).isEmpty ∧ k ≠ "root" ∧ k ≠ "hidden" then none
  else some (pruneFilter metas cs)

theorem pruneChildFold_fst (metas : List (String × MetaRec)) :
    ∀ (cs : List String)
      (acc : List String × List String × List (Option String × String)),
      (cs.foldl (pruneChildStep metas) acc).1 = acc.1 ++ pruneFilter metas cs := by
  intro cs
  induction cs with
  | nil => intro acc; simp [pruneFilter]
  | cons c rest ih =>
    intro acc
    rw [List.foldl_cons, ih]
    cases hc : lookupA metas c with
    | none =>
      have hcc : containsA metas c = false := by rw [containsA, hc]; rfl
      simp only [pruneChildStep, hc]
      simp [pruneFilter, List.filter_cons, hcc]
    | some m =>
      have hcc : containsA metas c = true := by rw [containsA, hc]; rfl
      simp only [pruneChildStep, hc]
      by_cases hro : c = "root" ∨ c = "hidden"
      · rw [if_pos hro]
        rcases hro with rfl | rfl <;> simp [pruneFilter, List.filter_cons, hcc]
      · rw [if_neg hro]
        push_neg at hro
        simp [pruneFilter, List.filter_cons, hcc, hro.1, hro.2]

theorem pruneChildFold_referred (metas : List (String × MetaRec)) :
    ∀ (cs : List String)
      (acc : List String × List String × List (Option String × String)),
      (cs.foldl (pruneChildStep metas) acc).2.1 =
        (pruneFilter metas cs).reverse ++ acc.2.1 := by
  intro cs
  induction cs with
  | nil => intro acc; simp [pruneFilter]
  | cons c rest ih =>
    intro acc
    rw [List.foldl_cons, ih]
    cases hc : lookupA metas c with
    | none =>
      have hcc : containsA metas c = false := by rw [containsA, hc]; rfl
      simp only [pruneChildStep, hc]
      simp [pruneFilter, List.filter_cons, hcc]
    | some m =>
      have hcc : containsA metas c = true := by rw [containsA, hc]; rfl
      simp only [pruneChildStep, hc]
      by_cases hro : c = "root" ∨ c = "hidden"
      · rw [if_pos hro]
        rcases hro with rfl | rfl <;> simp [pruneFilter, List.filter_cons, hcc]
      · rw [if_neg hro]
        push_neg at hro
        simp [pruneFilter, List.filter_cons, hcc, hro.1, hro.2]

theorem tocPruneStep_other (metas : List (String × MetaRec)) (st : TocCtx)
    (id k : String) (h : id ≠ k) :
    lookupA (tocPruneStep metas st id).toc k = lookupA st.toc k := by
  cases hc : lookupA st.toc id with
  | none => simp only [tocPruneStep, hc]
  | some cs =>
    simp only [tocPruneStep, hc]
    by_cases h1 : ¬containsA metas id ∧ id ≠ "root" ∧ id ≠ "hidden"
    · rw [if_pos h1]
      exact lookupA_eraseA_ne _ _ _ h
    · rw [if_neg h1]
      by_cases h2 : (cs.foldl (pruneChildStep metas)
          ([], st.referred, st.tmap)).1.isEmpty ∧ id ≠ "root" ∧ id ≠ "hidden"
      · rw [if_pos h2]
        rw [lookupA_eraseA_ne _ _ _ h, lookupA_setA_ne _ _ _ _ h]
      · rw [if_neg h2]
        exact lookupA_setA_ne _ _ _ _ h

theorem tocPruneStep_nodup (metas : List (String × MetaRec)) (st : TocCtx)
    (id : String) (hnd : (keysA st.toc).Nodup) :
    (keysA (tocPruneStep metas st id).toc).Nodup := by
  cases hc : lookupA st.toc id with
  | none => simp only [tocPruneStep, hc]; exact hnd
  | some cs =>
    simp only [tocPruneStep, hc]
    by_cases h1 : ¬containsA metas id ∧ id ≠ "root" ∧ id ≠ "hidden"
    · rw [if_pos h1]
      exact nodup_keysA_eraseA _ _ hnd
    · rw [if_neg h1]
      by_cases h2 : (cs.foldl (pruneChildStep metas)
          ([], st.referred, st.tmap)).1.isEmpty ∧ id ≠ "root" ∧ id ≠ "hidden"
      · rw [if_pos h2]
        exact nodup_keysA_eraseA _ _ (nodup_keysA_setA _ _ _ hnd)
      · rw [if_neg h2]
        exact nodup_keysA_setA _ _ _ hnd

theorem tocPruneStep_self (metas : List (String × MetaRec)) (st : TocCtx)
    (id : String) (hnd : (keysA st.toc).Nodup) :
    lookupA (tocPruneStep metas st id).toc id =
      (lookupA st.toc id).bind (pruneOutcome metas id) := by
  cases hc : lookupA st.toc id with
  | none => simp only [tocPruneStep, hc]; rfl
  | some cs =>
    simp only [tocPruneStep, hc, Option.some_bind]
    rw [pruneOutcome]
    by_cases h1 : ¬containsA metas id ∧ id ≠ "root" ∧ id ≠ "hidden"
    · rw [if_pos h1, if_pos h1]
      exact lookupA_eraseA_self _ _ hnd
    · rw [if_neg h1, if_neg h1]
      have hacc : (cs.foldl (pruneChildStep metas)
          ([], st.referred, st.tmap)).1 = pruneFilter metas cs := by
        rw [pruneChildFold_fst]
        simp
      by_cases h2 : (cs.foldl (pruneChildStep metas)
          ([], st.referred, st.tmap)).1.isEmpty ∧ id ≠ "root" ∧ id ≠ "hidden"
      · rw [if_pos h2, if_pos (by rw [← hacc]; exact h2)]
        exact lookupA_eraseA_self _ _ (nodup_keysA_setA _ _ _ hnd)
      · rw [if_neg h2, if_neg (by rw [← hacc]; exact h2)]
        rw [lookupA_setA_self, hacc]

theorem tocPruneFold_lookup (metas : List (String × MetaRec)) :
    ∀ (todo : List String) (st : TocCtx) (k : String),
      todo.Nodup → (keysA st.toc).Nodup →
      lookupA (todo.foldl (tocPruneStep metas) st).toc k =
        if k ∈ todo then (lookupA st.toc k).bind (pruneOutcome metas k)
        else lookupA st.toc k := by
  intro todo
  induction todo with
  | nil =>
    intro st k _ _
    simp
  | cons id rest ih =>
    intro st k hnd hk
    rw [List.foldl_cons]
    rw [List.nodup_cons] at hnd
    have hnd' := tocPruneStep_nodup metas st id hk
    by_cases he : k = id
    · subst he
      rw [ih _ _ hnd.2 hnd', if_neg hnd.1, tocPruneStep_self metas st k hk,
        if_pos (List.mem_cons_self _ _)]
    · rw [ih _ _ hnd.2 hnd']
      have hother := tocPruneStep_other metas st id k (fun hh => he hh.symm)
      by_cases hm : k ∈ rest
      · rw [if_pos hm, if_pos (List.mem_cons_of_mem _ hm), hother]
      · rw [if_neg hm, hother, if_neg (by simp [he, hm])]

/-- The pointwise characterization of the TOC pruning pass. -/
theorem tocPrune_lookup (metas : List (String × MetaRec))
    (toc₀ : List (String × List String)) (hnd : (keysA toc₀).Nodup) (k : String) :
    lookupA (tocPrune metas toc₀).toc k =
      (lookupA toc₀ k).bind (pruneOutcome metas k) := by
  rw [tocPrune, tocPruneFold_lookup metas (keysA toc₀) ⟨toc₀, [], []⟩ k hnd hnd]
  by_cases hk : k ∈ keysA toc₀
  · rw [if_pos hk]
  · rw [if_neg hk]
    have hnone : lookupA toc₀ k = none := by
      cases h : lookupA toc₀ k with
      | none => rfl
      | some v =>
        exact absurd ((lookupA_isSome_iff_mem_keysA toc₀ k).1 (by simp [h])) hk
    rw [hnone]
    rfl

theorem tocPruneFold_referred (metas : List (String × MetaRec)) :
    ∀ (todo : List String) (st : TocCtx),
      todo.Nodup → (keysA st.toc).Nodup →
      (∀ r ∈ st.referred, ∃ k cs, k ∉ todo ∧ lookupA st.toc k = some cs ∧ r ∈ cs) →
      ∀ r ∈ (todo.foldl (tocPruneStep metas) st).referred,
        ∃ k cs, lookupA (todo.foldl (tocPruneStep metas) st).toc k = some cs ∧
          r ∈ cs := by
  intro todo
  induction todo with
  | nil =>
    intro st _ _ hinv r hr
    obtain ⟨k, cs, _, h1, h2⟩ := hinv r hr
    exact ⟨k, cs, h1, h2⟩
  | cons id rest ih =>
    intro st hnd hk hinv
    rw [List.foldl_cons]
    rw [List.nodup_cons] at hnd
    refine ih (tocPruneStep metas st id) hnd.2 (tocPruneStep_nodup metas st id hk) ?_
    intro r hr
    cases hc : lookupA st.toc id with
    | none =>
      simp only [tocPruneStep, hc] at hr
      obtain ⟨k, cs, hk3, hl, hm⟩ := hinv r hr
      rw [List.mem_cons, not_or] at hk3
      exact ⟨k, cs, hk3.2,
        by rw [tocPruneStep_other metas st id k (fun hh => hk3.1 hh.symm)]; exact hl, hm⟩
    | some cs =>
      simp only [tocPruneStep, hc] at hr
      have hfst : (cs.foldl (pruneChildStep metas) ([], st.referred, st.tmap)).1 =
          pruneFilter metas cs := by
        rw [pruneChildFold_fst]
        simp
      by_cases h1 : ¬containsA metas id ∧ id ≠ "root" ∧ id ≠ "hidden"
      · rw [if_pos h1] at hr
        dsimp only at hr
        obtain ⟨k, cs', hk3, hl, hm⟩ := hinv r hr
        rw [List.mem_cons, not_or] at hk3
        exact ⟨k, cs', hk3.2,
          by rw [tocPruneStep_other metas st id k (fun hh => hk3.1 hh.symm)]; exact hl, hm⟩
      · rw [if_neg h1] at hr
        by_cases h2 : (cs.foldl (pruneChildStep metas)
            ([], st.referred, st.tmap)).1.isEmpty ∧ id ≠ "root" ∧ id ≠ "hidden"
        · rw [if_pos h2] at hr
          dsimp only at hr
          rw [pruneChildFold_referred] at hr
          rcases List.mem_append.1 hr with hrl | hrr
          · have hemp := h2.1
            rw [hfst, List.isEmpty_iff] at hemp
            rw [hemp] at hrl
            simp at hrl
          · obtain ⟨k, cs', hk3, hl, hm⟩ := hinv r hrr
            rw [List.mem_cons, not_or] at hk3
            exact ⟨k, cs', hk3.2,
              by rw [tocPruneStep_other metas st id k (fun hh => hk3.1 hh.symm)];
                 exact hl, hm⟩
        · rw [if_neg h2] at hr
          dsimp only at hr
          rw [pruneChildFold_referred] at hr
          rcases List.mem_append.1 hr with hrl | hrr
          · rw [List.mem_reverse] at hrl
            refine ⟨id, pruneFilter metas cs, hnd.1, ?_, hrl⟩
            rw [tocPruneStep_self metas st id hk, hc, Option.some_bind, pruneOutcome,
              if_neg h1, if_neg (by rw [← hfst]; exact h2)]
          · obtain ⟨k, cs', hk3, hl, hm⟩ := hinv r hrr
            rw [List.mem_cons, not_or] at hk3
            exact ⟨k, cs', hk3.2,
              by rw [tocPruneStep_other metas st id k (fun hh => hk3.1 hh.symm)];
                 exact hl, hm⟩

/-- Every identifier recorded as referred during pruning is a child
somewhere in the pruned TOC. -/
theorem tocPrune_referred (metas : List (String × MetaRec))
    (toc₀ : List (String × List String)) (hnd : (keysA toc₀).Nodup) :
    ∀ r ∈ (tocPrune metas toc₀).referred,
      ∃ k cs, lookupA (tocPrune metas toc₀).toc k = some cs ∧ r ∈ cs := by
  rw [tocPrune]
  exact tocPruneFold_referred metas (keysA toc₀) ⟨toc₀, [], []⟩ hnd hnd
    (fun r hr => absurd hr (List.not_mem_nil r))

/-- Full-state version of the reuse branch: the ensure step may add an
empty TOC entry for the reused folder, nothing else changes. -/
theorem insertSeg_reuse_full (now : Nat) (seg parentId : String) (st : InsCtx)
    (fid : String) (htm : lookupA st.tmap (some seg) = some fid)
    (hcond : (containsA st.metas fid &&
      ((lookupA st.toc parentId).getD []).contains fid) = true) :
    insertSeg now seg parentId st = (fid, st) ∨
    insertSeg now seg parentId st =
      (fid, { st with toc := setA st.toc fid [] }) := by
  unfold insertSeg
  rw [htm]
  dsimp only
  rw [if_pos hcond]
  dsimp only
  by_cases hc : containsA st.toc fid = true
  · rw [if_pos hc]
    exact Or.inl rfl
  · rw [if_neg hc]
    exact Or.inr rfl

/-- The metadata map after a segment step: unchanged (reuse) or extended
with exactly the synthesized folder. -/
theorem insertSeg_metas_cases (now : Nat) (seg parentId : String) (st : InsCtx) :
    (insertSeg now seg parentId st).2.metas = st.metas ∨
    (insertSeg now seg parentId st).2.metas =
      setA st.metas (getUniqueId now st.metas)
        (folderMeta seg (getUniqueId now st.metas)) := by
  unfold insertSeg generateFolder
  cases htm : lookupA st.tmap (some seg) with
  | none =>
    dsimp only
    by_cases hc : containsA (tocPush st.toc parentId (getUniqueId now st.metas))
        (getUniqueId now st.metas) = true
    · rw [if_pos hc]; exact Or.inr rfl
    · rw [if_neg hc]; exact Or.inr rfl
  | some fid =>
    dsimp only
    cases hcond : (containsA st.metas fid &&
        ((lookupA st.toc parentId).getD []).contains fid) with
    | true =>
      rw [if_pos rfl]
      dsimp only
      by_cases hc : containsA st.toc fid = true
      · rw [if_pos hc]; exact Or.inl rfl
      · rw [if_neg hc]; exact Or.inl rfl
    | false =>
      simp only [Bool.false_eq_true, if_false]
      by_cases hc : containsA (tocPush st.toc parentId (getUniqueId now st.metas))
          (getUniqueId now st.metas) = true
      · rw [if_pos hc]; exact Or.inr rfl
      · rw [if_neg hc]; exact Or.inr rfl

theorem insertSeg_metas_mono (now : Nat) (seg parentId : String) (st : InsCtx)
    (x : String) (h : containsA st.metas x = true) :
    containsA (insertSeg now seg parentId st).2.metas x = true := by
  rcases insertSeg_metas_cases now seg parentId st with he | he
  · rw [he]; exact h
  · rw [he]; exact containsA_of_setA _ _ _ _ h

theorem insertSegs_metas_mono (now : Nat) :
    ∀ (segs : List String) (parentId : String) (st : InsCtx) (x : String),
      containsA st.metas x = true →
      containsA (insertSegs now segs parentId st).2.metas x = true := by
  intro segs
  induction segs with
  | nil => intro parentId st x h; exact h
  | cons seg rest ih =>
    intro parentId st x h
    rw [insertSegs]
    exact ih _ _ x (insertSeg_metas_mono now seg parentId st x h)

/-- The invariant carried along the folder-hint walk: the current parent
is the root or has a metadata entry; every TOC child has a metadata
entry; every non-root/hidden TOC key has a metadata entry and a
non-empty child list, except possibly the current parent. -/
def walkInv (st : InsCtx) (parentId : String) : Prop :=
  (parentId = "root" ∨ containsA st.metas parentId = true) ∧
  (∀ k cs, lookupA st.toc k = some cs → ∀ c ∈ cs, containsA st.metas c = true) ∧
  (∀ k cs, lookupA st.toc k = some cs → k ≠ "root" → k ≠ "hidden" →
    containsA st.metas k = true ∧ (cs ≠ [] ∨ k = parentId))

theorem insertSeg_gen_walkInv (now : Nat) (seg parentId : String) (st : InsCtx)
    (h : walkInv st parentId)
    (hno : ∀ fid, lookupA st.tmap (some seg) = some fid →
      ¬(containsA st.metas fid = true ∧
        fid ∈ (lookupA st.toc parentId).getD [])) :
    walkInv (insertSeg now seg parentId st).2 (insertSeg now seg parentId st).1 := by
  obtain ⟨hR, hA, hB⟩ := h
  obtain ⟨h1, h2, h3, h4⟩ := insertSeg_gen now seg parentId st hno
  have hgr := getUniqueId_ne_root now st.metas
  have hgh := getUniqueId_ne_hidden now st.metas
  have hgf := getUniqueId_fresh now st.metas
  have hgp : getUniqueId now st.metas ≠ parentId := by
    intro heq
    rcases hR with hRr | hRc
    · exact hgr (heq.trans hRr)
    · rw [← heq, hgf] at hRc
      exact Bool.noConfusion hRc
  by_cases hc : containsA (tocPush st.toc parentId (getUniqueId now st.metas))
      (getUniqueId now st.metas) = true
  · exfalso
    rw [tocPush, containsA_setA_ne _ _ _ _ (fun hh => hgp hh.symm)] at hc
    have hex : ∃ cs, lookupA st.toc (getUniqueId now st.metas) = some cs := by
      rw [containsA] at hc
      cases hl : lookupA st.toc (getUniqueId now st.metas) with
      | none => rw [hl] at hc; exact Bool.noConfusion hc
      | some cs => exact ⟨cs, rfl⟩
    obtain ⟨cs, hcs⟩ := hex
    obtain ⟨hmet, -⟩ := hB _ cs hcs hgr hgh
    rw [hgf] at hmet
    exact Bool.noConfusion hmet
  · rw [if_neg hc] at h4
    rw [walkInv, h1, h2, h4]
    refine ⟨Or.inr (by rw [containsA, lookupA_setA_self]; rfl), ?_, ?_⟩
    · intro k cs hw c hcmem
      by_cases hkg : getUniqueId now st.metas = k
      · rw [← hkg, lookupA_setA_self] at hw
        injection hw with hw
        rw [← hw] at hcmem
        simp at hcmem
      · rw [lookupA_setA_ne _ _ _ _ hkg, tocPush] at hw
        by_cases hkp : parentId = k
        · rw [← hkp, lookupA_setA_self] at hw
          injection hw with hw
          rw [← hw] at hcmem
          rcases List.mem_append.1 hcmem with hcl | hcr
          · cases hl : lookupA st.toc parentId with
            | none => rw [hl] at hcl; simp at hcl
            | some l =>
              rw [hl] at hcl
              exact containsA_of_setA _ _ _ _ (hA parentId l hl c (by simpa using hcl))
          · rw [List.mem_singleton.1 hcr]
            rw [containsA, lookupA_setA_self]
            rfl
        · rw [lookupA_setA_ne _ _ _ _ hkp] at hw
          exact containsA_of_setA _ _ _ _ (hA k cs hw c hcmem)
    · intro k cs hw hkr hkh
      by_cases hkg : getUniqueId now st.metas = k
      · rw [← hkg, lookupA_setA_self] at hw
        injection hw with hw
        exact ⟨by rw [← hkg, containsA, lookupA_setA_self]; rfl, Or.inr hkg.symm⟩
      · rw [lookupA_setA_ne _ _ _ _ hkg, tocPush] at hw
        by_cases hkp : parentId = k
        · rw [← hkp, lookupA_setA_self] at hw
          injection hw with hw
          refine ⟨?_, Or.inl ?_⟩
          · rcases hR with hRr | hRc
            · exact absurd (hkp.symm.trans hRr) hkr
            · exact containsA_of_setA _ _ _ _ (by rw [hkp] at hRc; exact hRc)
          · rw [← hw]
            simp
        · rw [lookupA_setA_ne _ _ _ _ hkp] at hw
          obtain ⟨hm1, hm2⟩ := hB k cs hw hkr hkh
          refine ⟨containsA_of_setA _ _ _ _ hm1, Or.inl ?_⟩
          rcases hm2 with hm2 | hm2
          · exact hm2
          · exact absurd hm2.symm hkp

theorem insertSeg_walkInv (now : Nat) (seg parentId : String) (st : InsCtx)
    (h : walkInv st parentId) :
    walkInv (insertSeg now seg parentId st).2 (insertSeg now seg parentId st).1 := by
  cases htm : lookupA st.tmap (some seg) with
  | none =>
    refine insertSeg_gen_walkInv now seg parentId st h ?_
    intro fid htm' _
    rw [htm] at htm'
    exact Option.noConfusion htm'
  | some fid =>
    cases hcond : (containsA st.metas fid &&
        ((lookupA st.toc parentId).getD []).contains fid) with
    | false =>
      refine insertSeg_gen_walkInv now seg parentId st h ?_
      intro fid' htm' hand
      rw [htm] at htm'
      injection htm' with htm'
      subst htm'
      have hct : (containsA st.metas fid &&
          ((lookupA st.toc parentId).getD []).contains fid) = true := by
        rw [Bool.and_eq_true]
        exact ⟨hand.1, by simpa using hand.2⟩
      rw [hcond] at hct
      exact Bool.noConfusion hct
    | true =>
      obtain ⟨hR, hA, hB⟩ := h
      have hcond' := hcond
      rw [Bool.and_eq_true] at hcond'
      have hfidm : containsA st.metas fid = true := hcond'.1
      have hmem : fid ∈ (lookupA st.toc parentId).getD [] := by
        simpa using hcond'.2
      have hpl : ∃ l, lookupA st.toc parentId = some l ∧ fid ∈ l := by
        cases hl : lookupA st.toc parentId with
        | none => rw [hl] at hmem; simp at hmem
        | some l => rw [hl] at hmem; exact ⟨l, rfl, by simpa using hmem⟩
      obtain ⟨l, hl, hfl⟩ := hpl
      rcases insertSeg_reuse_full now seg parentId st fid htm hcond with hres | hres
      · rw [hres]
        refine ⟨Or.inr hfidm, hA, ?_⟩
        intro k cs hw hkr hkh
        obtain ⟨hm1, hm2⟩ := hB k cs hw hkr hkh
        refine ⟨hm1, ?_⟩
        rcases hm2 with hm2 | hm2
        · exact Or.inl hm2
        · subst hm2
          rw [hw] at hl
          injection hl with hl
          subst hl
          exact Or.inl (fun hnil => by rw [hnil] at hfl; simp at hfl)
      · rw [hres]
        refine ⟨Or.inr hfidm, ?_, ?_⟩
        · intro k cs hw c hcmem
          by_cases hkf : fid = k
          · rw [← hkf, lookupA_setA_self] at hw
            injection hw with hw
            rw [← hw] at hcmem
            simp at hcmem
          · rw [lookupA_setA_ne _ _ _ _ hkf] at hw
            exact hA k cs hw c hcmem
        · intro k cs hw hkr hkh
          by_cases hkf : fid = k
          · rw [← hkf, lookupA_setA_self] at hw
            injection hw with hw
            exact ⟨by rw [← hkf]; exact hfidm, Or.inr hkf.symm⟩
          · rw [lookupA_setA_ne _ _ _ _ hkf] at hw
            obtain ⟨hm1, hm2⟩ := hB k cs hw hkr hkh
            refine ⟨hm1, ?_⟩
            rcases hm2 with hm2 | hm2
            · exact Or.inl hm2
            · subst hm2
              rw [hw] at hl
              injection hl with hl
              subst hl
              exact Or.inl (fun hnil => by rw [hnil] at hfl; simp at hfl)

theorem insertSegs_walkInv (now : Nat) :
    ∀ (segs : List String) (parentId : String) (st : InsCtx),
      walkInv st parentId →
      walkInv (insertSegs now segs parentId st).2 (insertSegs now segs parentId st).1 := by
  intro segs
  induction segs with
  | nil => intro parentId st h; exact h
  | cons seg rest ih =>
    intro parentId st h
    rw [insertSegs]
    exact ih _ _ (insertSeg_walkInv now seg parentId st h)

/-- The two integrity properties carried through orphan re-insertion:
every TOC child has a metadata entry, and every non-root/hidden TOC key
has a metadata entry and a non-empty child list. -/
def insAB (st : InsCtx) : Prop :=
  (∀ k cs, lookupA st.toc k = some cs → ∀ c ∈ cs, containsA st.metas c = true) ∧
  (∀ k cs, lookupA st.toc k = some cs → k ≠ "root" → k ≠ "hidden" →
    containsA st.metas k = true ∧ cs ≠ [])

theorem tocPush_self (t : List (String × List String)) (k c : String) :
    lookupA (tocPush t k c) k = some ((lookupA t k).getD [] ++ [c]) := by
  rw [tocPush, lookupA_setA_self]

theorem insertToToc_metas_mono (now : Nat) (id : String) (st : InsCtx)
    (x : String) (h : containsA st.metas x = true) :
    containsA (insertToToc now id st).metas x = true := by
  cases hm : lookupA st.metas id with
  | none => simp only [insertToToc, hm]; exact h
  | some meta =>
    simp only [insertToToc, hm]
    by_cases hf : ¬jtruthy meta.folder = true
    · rw [if_pos hf]
      exact h
    · rw [if_neg hf]
      exact insertSegs_metas_mono now _ "root" st x h

theorem insertToToc_insAB (now : Nat) (id : String) (st : InsCtx)
    (h : insAB st) : insAB (insertToToc now id st) := by
  obtain ⟨hA, hB⟩ := h
  cases hm : lookupA st.metas id with
  | none => simp only [insertToToc, hm]; exact ⟨hA, hB⟩
  | some meta =>
    simp only [insertToToc, hm]
    have hidm : containsA st.metas id = true := by rw [containsA, hm]; rfl
    by_cases hf : ¬jtruthy meta.folder = true
    · rw [if_pos hf, insAB]
      dsimp only
      constructor
      · intro k cs hw c hc
        by_cases hk : "root" = k
        · rw [← hk, tocPush_self] at hw
          injection hw with hw
          rw [← hw] at hc
          rcases List.mem_append.1 hc with hcl | hcr
          · cases hl : lookupA st.toc "root" with
            | none => rw [hl] at hcl; simp at hcl
            | some l =>
              rw [hl] at hcl
              exact hA "root" l hl c (by simpa using hcl)
          · rw [List.mem_singleton.1 hcr]
            exact hidm
        · rw [tocPush, lookupA_setA_ne _ _ _ _ hk] at hw
          exact hA k cs hw c hc
      · intro k cs hw hkr hkh
        rw [tocPush, lookupA_setA_ne _ _ _ _ (fun hh => hkr hh.symm)] at hw
        exact hB k cs hw hkr hkh
    · rw [if_neg hf, insAB]
      dsimp only
      have hw0 : walkInv st "root" :=
        ⟨Or.inl rfl, hA, fun k cs hw hkr hkh =>
          ⟨(hB k cs hw hkr hkh).1, Or.inl (hB k cs hw hkr hkh).2⟩⟩
      obtain ⟨hR1, hA1, hB1⟩ :=
        insertSegs_walkInv now (splitRuns isFolderSep (meta.folder.getD "")) "root" st hw0
      have hidm1 : containsA
          (insertSegs now (splitRuns isFolderSep (meta.folder.getD "")) "root" st).2.metas
          id = true :=
        insertSegs_metas_mono now _ "root" st id hidm
      constructor
      · intro k cs hw c hc
        by_cases hk : (insertSegs now (splitRuns isFolderSep (meta.folder.getD ""))
            "root" st).1 = k
        · rw [← hk, tocPush_self] at hw
          injection hw with hw
          rw [← hw] at hc
          rcases List.mem_append.1 hc with hcl | hcr
          · cases hl : lookupA
                (insertSegs now (splitRuns isFolderSep (meta.folder.getD ""))
                  "root" st).2.toc
                (insertSegs now (splitRuns isFolderSep (meta.folder.getD ""))
                  "root" st).1 with
            | none => rw [hl] at hcl; simp at hcl
            | some l =>
              rw [hl] at hcl
              exact hA1 _ l hl c (by simpa using hcl)
          · rw [List.mem_singleton.1 hcr]
            exact hidm1
        · rw [tocPush, lookupA_setA_ne _ _ _ _ hk] at hw
          exact hA1 k cs hw c hc
      · intro k cs hw hkr hkh
        by_cases hk : (insertSegs now (splitRuns isFolderSep (meta.folder.getD ""))
            "root" st).1 = k
        · rw [← hk, tocPush_self] at hw
          injection hw with hw
          refine ⟨?_, ?_⟩
          · rcases hR1 with hr | hr
            · exact absurd (hk.symm.trans hr) (by rw [← hk] at hkr ⊢; exact hkr)
            · rw [← hk]
              exact hr
          · rw [← hw]
            simp
        · rw [tocPush, lookupA_setA_ne _ _ _ _ hk] at hw
          obtain ⟨h1, h2⟩ := hB1 k cs hw hkr hkh
          refine ⟨h1, ?_⟩
          rcases h2 with h2 | h2
          · exact h2
          · exact absurd h2.symm hk

/-- The metadata map of an `insertStep` result: the possibly-inserted
state's map, with the processed entry's transient fields stripped. -/
theorem insertStep_metas (now : Nat) (referred : List String) (st : InsCtx)
    (id : String) :
    (insertStep now referred st id).metas =
      (match lookupA (if id ∉ referred ∧ id ≠ "root" ∧ id ≠ "hidden"
          then insertToToc now id st else st).metas id with
       | some m =>
         setA (if id ∉ referred ∧ id ≠ "root" ∧ id ≠ "hidden"
             then insertToToc now id st else st).metas id
           { m with id := none, folder := none, exported := none }
       | none => (if id ∉ referred ∧ id ≠ "root" ∧ id ≠ "hidden"
           then insertToToc now id st else st).metas) := by
  unfold insertStep
  by_cases hg : id ∉ referred ∧ id ≠ "root" ∧ id ≠ "hidden"
  · rw [if_pos hg, if_pos hg]
    dsimp only
    cases h2 : lookupA (insertToToc now id st).metas id with
    | some m => rw [h2]
    | none => rw [h2]
  · rw [if_neg hg, if_neg hg]
    dsimp only
    cases h3 : lookupA st.metas id with
    | some m => rfl
    | none => rfl

theorem insertStep_metas_mono (now : Nat) (referred : List String) (st : InsCtx)
    (id x : String) (h : containsA st.metas x = true) :
    containsA (insertStep now referred st id).metas x = true := by
  rw [insertStep_metas]
  by_cases hg : id ∉ referred ∧ id ≠ "root" ∧ id ≠ "hidden"
  · rw [if_pos hg]
    have hm := insertToToc_metas_mono now id st x h
    cases h2 : lookupA (insertToToc now id st).metas id with
    | none => simp only [h2]; exact hm
    | some m => simp only [h2]; exact containsA_of_setA _ _ _ _ hm
  · rw [if_neg hg]
    cases h2 : lookupA st.metas id with
    | none => simp only [h2]; exact h
    | some m => simp only [h2]; exact containsA_of_setA _ _ _ _ h

theorem insertFold_metas_mono (now : Nat) (referred : List String) :
    ∀ (ids : List String) (st : InsCtx) (x : String),
      containsA st.metas x = true →
      containsA ((ids.foldl (insertStep now referred) st)).metas x = true := by
  intro ids
  induction ids with
  | nil => intro st x h; exact h
  | cons a rest ih =>
    intro st x h
    rw [List.foldl_cons]
    exact ih _ x (insertStep_metas_mono now referred st a x h)

theorem insertStep_insAB (now : Nat) (referred : List String) (st : InsCtx)
    (id : String) (h : insAB st) : insAB (insertStep now referred st id) := by
  by_cases hg : id ∉ referred ∧ id ≠ "root" ∧ id ≠ "hidden"
  · obtain ⟨hA1, hB1⟩ := insertToToc_insAB now id st h
    constructor
    · intro k cs hw c hc
      rw [insertStep_toc, if_pos hg] at hw
      have hc1 := hA1 k cs hw c hc
      rw [insertStep_metas, if_pos hg]
      cases h2 : lookupA (insertToToc now id st).metas id with
      | none => simp only [h2]; exact hc1
      | some m => simp only [h2]; exact containsA_of_setA _ _ _ _ hc1
    · intro k cs hw hkr hkh
      rw [insertStep_toc, if_pos hg] at hw
      obtain ⟨h1, h2'⟩ := hB1 k cs hw hkr hkh
      refine ⟨?_, h2'⟩
      rw [insertStep_metas, if_pos hg]
      cases h2 : lookupA (insertToToc now id st).metas id with
      | none => simp only [h2]; exact h1
      | some m => simp only [h2]; exact containsA_of_setA _ _ _ _ h1
  · obtain ⟨hA1, hB1⟩ := h
    constructor
    · intro k cs hw c hc
      rw [insertStep_toc, if_neg hg] at hw
      have hc1 := hA1 k cs hw c hc
      rw [insertStep_metas, if_neg hg]
      cases h2 : lookupA st.metas id with
      | none => simp only [h2]; exact hc1
      | some m => simp only [h2]; exact containsA_of_setA _ _ _ _ hc1
    · intro k cs hw hkr hkh
      rw [insertStep_toc, if_neg hg] at hw
      obtain ⟨h1, h2'⟩ := hB1 k cs hw hkr hkh
      refine ⟨?_, h2'⟩
      rw [insertStep_metas, if_neg hg]
      cases h2 : lookupA st.metas id with
      | none => simp only [h2]; exact h1
      | some m => simp only [h2]; exact containsA_of_setA _ _ _ _ h1

theorem insertFold_insAB (now : Nat) (referred : List String) :
    ∀ (ids : List String) (st : InsCtx), insAB st →
      insAB (ids.foldl (insertStep now referred) st) := by
  intro ids
  induction ids with
  | nil => intro st h; exact h
  | cons a rest ih =>
    intro st h
    rw [List.foldl_cons]
    exact ih _ (insertStep_insAB now referred st a h)

/-- Keys added to the metadata map after the fixup pass are synthesized
folders. -/
def newKeysFolders (metas₁ metas : List (String × MetaRec)) : Prop :=
  ∀ id m, lookupA metas id = some m → id ∈ keysA metas₁ ∨ m.type = some "folder"

theorem insertSeg_newKeys (now : Nat) (seg parentId : String) (st : InsCtx)
    (metas₁ : List (String × MetaRec)) (h : newKeysFolders metas₁ st.metas) :
    newKeysFolders metas₁ (insertSeg now seg parentId st).2.metas := by
  rcases insertSeg_metas_cases now seg parentId st with he | he
  · rw [he]; exact h
  · rw [he]
    intro id m hm
    by_cases hg : getUniqueId now st.metas = id
    · rw [← hg, lookupA_setA_self] at hm
      injection hm with hm
      exact Or.inr (by rw [← hm]; rfl)
    · rw [lookupA_setA_ne _ _ _ _ hg] at hm
      exact h id m hm

theorem insertSegs_newKeys (now : Nat) (metas₁ : List (String × MetaRec)) :
    ∀ (segs : List String) (parentId : String) (st : InsCtx),
      newKeysFolders metas₁ st.metas →
      newKeysFolders metas₁ (insertSegs now segs parentId st).2.metas := by
  intro segs
  induction segs with
  | nil => intro parentId st h; exact h
  | cons seg rest ih =>
    intro parentId st h
    rw [insertSegs]
    exact ih _ _ (insertSeg_newKeys now seg parentId st metas₁ h)

theorem insertToToc_newKeys (now : Nat) (id : String) (st : InsCtx)
    (metas₁ : List (String × MetaRec)) (h : newKeysFolders metas₁ st.metas) :
    newKeysFolders metas₁ (insertToToc now id st).metas := by
  cases hm : lookupA st.metas id with
  | none => simp only [insertToToc, hm]; exact h
  | some meta =>
    simp only [insertToToc, hm]
    by_cases hf : ¬jtruthy meta.folder = true
    · rw [if_pos hf]
      exact h
    · rw [if_neg hf]
      exact insertSegs_newKeys now metas₁ _ "root" st h

theorem insertStep_newKeys (now : Nat) (referred : List String) (st : InsCtx)
    (id : String) (metas₁ : List (String × MetaRec))
    (h : newKeysFolders metas₁ st.metas) :
    newKeysFolders metas₁ (insertStep now referred st id).metas := by
  by_cases hg : id ∉ referred ∧ id ≠ "root" ∧ id ≠ "hidden"
  · have h1 := insertToToc_newKeys now id st metas₁ h
    rw [insertStep_metas, if_pos hg]
    cases h2 : lookupA (insertToToc now id st).metas id with
    | none => simp only [h2]; exact h1
    | some m =>
      simp only [h2]
      intro id' m' hm'
      by_cases hid : id = id'
      · rw [← hid, lookupA_setA_self] at hm'
        injection hm' with hm'
        rcases h1 id m h2 with hl | hr
        · exact Or.inl (hid ▸ hl)
        · refine Or.inr ?_
          rw [← hm']
          exact hr
      · rw [lookupA_setA_ne _ _ _ _ hid] at hm'
        exact h1 id' m' hm'
  · rw [insertStep_metas, if_neg hg]
    cases h2 : lookupA st.metas id with
    | none => simp only [h2]; exact h
    | some m =>
      simp only [h2]
      intro id' m' hm'
      by_cases hid : id = id'
      · rw [← hid, lookupA_setA_self] at hm'
        injection hm' with hm'
        rcases h id m h2 with hl | hr
        · exact Or.inl (hid ▸ hl)
        · refine Or.inr ?_
          rw [← hm']
          exact hr
      · rw [lookupA_setA_ne _ _ _ _ hid] at hm'
        exact h id' m' hm'

theorem insertFold_newKeys (now : Nat) (referred : List String)
    (metas₁ : List (String × MetaRec)) :
    ∀ (ids : List String) (st : InsCtx),
      newKeysFolders metas₁ st.metas →
      newKeysFolders metas₁ ((ids.foldl (insertStep now referred) st)).metas := by
  intro ids
  induction ids with
  | nil => intro st h; exact h
  | cons a rest ih =>
    intro st h
    rw [List.foldl_cons]
    exact ih _ (insertStep_newKeys now referred st a metas₁ h)

/-- An inserted orphan ends up as a child somewhere in the TOC. -/
theorem insertToToc_self_occ (now : Nat) (id : String) (st : InsCtx)
    (hm : containsA st.metas id = true) :
    ∃ k cs, lookupA (insertToToc now id st).toc k = some cs ∧ id ∈ cs := by
  cases hml : lookupA st.metas id with
  | none =>
    rw [containsA, hml] at hm
    exact Bool.noConfusion hm
  | some meta =>
    simp only [insertToToc, hml]
    by_cases hf : ¬jtruthy meta.folder = true
    · rw [if_pos hf]
      exact ⟨"root", (lookupA st.toc "root").getD [] ++ [id],
        tocPush_self st.toc "root" id, by simp⟩
    · rw [if_neg hf]
      exact ⟨(insertSegs now (splitRuns isFolderSep (meta.folder.getD "")) "root" st).1,
        _, tocPush_self _ _ id, by simp⟩

theorem insertFold_tocLE (now : Nat) (referred : List String) :
    ∀ (ids : List String) (st : InsCtx),
      tocLE st.toc ((ids.foldl (insertStep now referred) st)).toc := by
  intro ids
  induction ids with
  | nil => intro st; exact tocLE_refl _
  | cons a rest ih =>
    intro st
    rw [List.foldl_cons]
    exact tocLE_trans (insertStep_tocLE now referred st a) (ih _)

/-- Coverage: every iterated identifier that is neither referred nor a
reserved root ends up as a TOC child by the end of the insertion fold. -/
theorem insertFold_coverage (now : Nat) (referred : List String) :
    ∀ (ids : List String) (st : InsCtx),
      (∀ i ∈ ids, containsA st.metas i = true) →
      ∀ id ∈ ids, id ∉ referred → id ≠ "root" → id ≠ "hidden" →
        ∃ k cs, lookupA ((ids.foldl (insertStep now referred) st)).toc k = some cs ∧
          id ∈ cs := by
  intro ids
  induction ids with
  | nil =>
    intro st _ id hid
    simp at hid
  | cons a rest ih =>
    intro st hall id hid hnr hr hh
    rw [List.foldl_cons]
    rcases List.mem_cons.1 hid with rfl | hmem
    · have hInS : ∃ k cs,
          lookupA (insertStep now referred st id).toc k = some cs ∧ id ∈ cs := by
        rw [insertStep_toc, if_pos ⟨hnr, hr, hh⟩]
        exact insertToToc_self_occ now id st (hall id (List.mem_cons_self _ _))
      obtain ⟨k, cs, hl, hc⟩ := hInS
      obtain ⟨ext, hext⟩ :=
        insertFold_tocLE now referred rest (insertStep now referred st id) k cs hl
      exact ⟨k, cs ++ ext, hext, List.mem_append.2 (Or.inl hc)⟩
    · exact ih (insertStep now referred st a)
        (fun i hi => insertStep_metas_mono now referred st a i
          (hall i (List.mem_cons_of_mem _ hi)))
        id hmem hnr hr hh

theorem favStep_keysA (resolve : String → Option String) (st : FavCtx)
    (id : String) : keysA (favStep resolve st id).metas = keysA st.metas := by
  cases hm : lookupA st.metas id with
  | none => simp only [favStep, hm]
  | some meta =>
    have hmem : id ∈ keysA st.metas :=
      (lookupA_isSome_iff_mem_keysA _ _).1 (by rw [hm]; rfl)
    cases hi : meta.icon with
    | none =>
      simp only [favStep, hm, hi]
      exact keysA_setA_of_mem _ _ _ hmem
    | some url =>
      by_cases hu : url = "" ∨ ¬jsHasChar ':' url = true
      · simp only [favStep, hm, hi]
        rw [if_pos hu]
        exact keysA_setA_of_mem _ _ _ hmem
      · simp only [favStep, hm, hi]
        rw [if_neg hu]
        exact keysA_setA_of_mem _ _ _ hmem

theorem favFold_keysA (resolve : String → Option String) :
    ∀ (ids : List String) (st : FavCtx),
      keysA ((ids.foldl (favStep resolve) st)).metas = keysA st.metas := by
  intro ids
  induction ids with
  | nil => intro st; rfl
  | cons a rest ih =>
    intro st
    rw [List.foldl_cons, ih, favStep_keysA]

theorem faviconPass_keysA (resolve : String → Option String)
    (metas₂ : List (String × MetaRec)) :
    keysA (faviconPass resolve metas₂).metas = keysA metas₂ := by
  unfold faviconPass
  exact favFold_keysA resolve _ _

theorem favStep_typeMap (resolve : String → Option String) (st : FavCtx)
    (id x : String) :
    (lookupA (favStep resolve st id).metas x).map MetaRec.type =
      (lookupA st.metas x).map MetaRec.type := by
  cases hm : lookupA st.metas id with
  | none => simp only [favStep, hm]
  | some meta =>
    cases hi : meta.icon with
    | none =>
      simp only [favStep, hm, hi]
      by_cases hx : id = x
      · rw [← hx, lookupA_setA_self, hm]
        rfl
      · rw [lookupA_setA_ne _ _ _ _ hx]
    | some url =>
      by_cases hu : url = "" ∨ ¬jsHasChar ':' url = true
      · simp only [favStep, hm, hi]
        rw [if_pos hu]
        by_cases hx : id = x
        · rw [← hx, lookupA_setA_self, hm]
          rfl
        · rw [lookupA_setA_ne _ _ _ _ hx]
      · simp only [favStep, hm, hi]
        rw [if_neg hu]
        by_cases hx : id = x
        · rw [← hx, lookupA_setA_self, hm]
          rfl
        · rw [lookupA_setA_ne _ _ _ _ hx]

theorem favFold_typeMap (resolve : String → Option String) :
    ∀ (ids : List String) (st : FavCtx) (x : String),
      (lookupA ((ids.foldl (favStep resolve) st)).metas x).map MetaRec.type =
        (lookupA st.metas x).map MetaRec.type := by
  intro ids
  induction ids with
  | nil => intro st x; rfl
  | cons a rest ih =>
    intro st x
    rw [List.foldl_cons, ih, favStep_typeMap]

theorem faviconPass_typeMap (resolve : String → Option String)
    (metas₂ : List (String × MetaRec)) (x : String) :
    (lookupA (faviconPass resolve metas₂).metas x).map MetaRec.type =
      (lookupA metas₂ x).map MetaRec.type := by
  unfold faviconPass
  exact favFold_typeMap resolve _ _ x

theorem containsA_congr_keysA (a b : List (String × MetaRec))
    (hab : keysA a = keysA b) (x : String) : containsA a x = containsA b x := by
  by_cases hx : x ∈ keysA b
  · rw [(containsA_iff_mem_keysA b x).2 hx,
      (containsA_iff_mem_keysA a x).2 (by rw [hab]; exact hx)]
  · have ha : containsA a x = false := by
      cases hc : containsA a x
      · rfl
      · exact absurd (by rw [← hab]; exact (containsA_iff_mem_keysA a x).1 hc) hx
    have hb : containsA b x = false := by
      cases hc : containsA b x
      · rfl
      · exact absurd ((containsA_iff_mem_keysA b x).1 hc) hx
    rw [ha, hb]

theorem childOccurrences_pos (toc : List (String × List String)) (k c : String)
    (cs : List String) (h : lookupA toc k = some cs) (hc : c ∈ cs) :
    1 ≤ childOccurrences toc c := by
  have hmem := mem_of_lookupA_eq_some toc k cs h
  have h1 : 0 < cs.count c := List.count_pos_iff.2 hc
  have h2 : cs.count c ∈ toc.map (fun kv => kv.2.count c) :=
    List.mem_map_of_mem _ hmem
  rw [childOccurrences]
  exact le_trans h1 (List.single_le_sum (fun x _ => Nat.zero_le x) _ h2)

/-- The pruned TOC satisfies the two integrity properties relative to
the fixed-up metadata. -/
theorem tocPrune_insAB (metas₁ : List (String × MetaRec))
    (toc₀ : List (String × List String)) (hnd : (keysA toc₀).Nodup) :
    (∀ k cs, lookupA (tocPrune metas₁ toc₀).toc k = some cs →
      ∀ c ∈ cs, containsA metas₁ c = true) ∧
    (∀ k cs, lookupA (tocPrune metas₁ toc₀).toc k = some cs →
      k ≠ "root" → k ≠ "hidden" → containsA metas₁ k = true ∧ cs ≠ []) := by
  constructor
  · intro k cs hw c hc
    rw [tocPrune_lookup metas₁ toc₀ hnd k] at hw
    cases hl : lookupA toc₀ k with
    | none =>
      rw [hl] at hw
      exact absurd hw (by simp)
    | some cs0 =>
      rw [hl, Option.some_bind, pruneOutcome] at hw
      split_ifs at hw with h1 h2
      injection hw with hw
      rw [← hw] at hc
      rw [pruneFilter, List.mem_filter] at hc
      have hcb := hc.2
      rw [Bool.and_eq_true, Bool.and_eq_true] at hcb
      exact hcb.1.1
  · intro k cs hw hkr hkh
    rw [tocPrune_lookup metas₁ toc₀ hnd k] at hw
    cases hl : lookupA toc₀ k with
    | none =>
      rw [hl] at hw
      exact absurd hw (by simp)
    | some cs0 =>
      rw [hl, Option.some_bind, pruneOutcome] at hw
      split_ifs at hw with h1 h2
      injection hw with hw
      constructor
      · by_contra hcm
        exact h1 ⟨hcm, hkr, hkh⟩
      · intro hnil
        refine h2 ⟨?_, hkr, hkh⟩
        rw [hw, hnil]
        rfl

theorem insertPass_insAB (now : Nat) (metas₁ : List (String × MetaRec))
    (toc₁ : List (String × List String)) (referred : List String)
    (tmap₁ : List (Option String × String))
    (h : insAB ⟨metas₁, toc₁, tmap₁⟩) :
    insAB (insertPass now metas₁ toc₁ referred tmap₁) := by
  unfold insertPass
  exact insertFold_insAB now referred _ _ h

theorem insertPass_newKeys (now : Nat) (metas₁ : List (String × MetaRec))
    (toc₁ : List (String × List String)) (referred : List String)
    (tmap₁ : List (Option String × String)) :
    newKeysFolders metas₁ (insertPass now metas₁ toc₁ referred tmap₁).metas := by
  unfold insertPass
  exact insertFold_newKeys now referred metas₁ _ _
    (fun id m hm => Or.inl ((lookupA_isSome_iff_mem_keysA _ _).1 (by rw [hm]; rfl)))

theorem insertPass_coverage (now : Nat) (metas₁ : List (String × MetaRec))
    (toc₁ : List (String × List String)) (referred : List String)
    (tmap₁ : List (Option String × String)) (id : String)
    (hm : id ∈ keysA metas₁) (h1 : id ∉ referred) (h2 : id ≠ "root")
    (h3 : id ≠ "hidden") :
    ∃ k cs, lookupA (insertPass now metas₁ toc₁ referred tmap₁).toc k = some cs ∧
      id ∈ cs := by
  unfold insertPass
  refine insertFold_coverage now referred _ ⟨metas₁, toc₁, tmap₁⟩ ?_ id ?_ h1 h2 h3
  · intro i hi
    exact (containsA_iff_mem_keysA metas₁ i).2 ((insertionSortJS_perm _ _).mem_iff.1 hi)
  · exact (insertionSortJS_perm _ _).mem_iff.2 hm

/-- C1 (corrected: “exactly once” weakened to “at least once”): after a
full reconciliation run, every child identifier in the final TOC has a
surviving metadata entry; every non-root/hidden TOC key has a surviving
metadata entry and a non-empty child list; and every surviving metadata
entry of non-container type that is not a reserved root appears at least
once as a TOC child.  The pruning loop keeps duplicate references, so a
child may appear more than once (`toc_child_appears_twice`). -/
theorem toc_integrity (now : Nat) (utf : String → String)
    (resolve : String → Option String) (metas₀ : List (String × MetaRec))
    (dataDirs₀ : List (String × List String)) (toc₀ : List (String × List String))
    (metasF : List (String × MetaRec)) (tocF : List (String × List String))
    (hnd : (keysA toc₀).Nodup)
    (hrun : runReconcile now utf resolve metas₀ dataDirs₀ toc₀ =
      some (metasF, tocF)) :
    (∀ k cs, lookupA tocF k = some cs → ∀ c ∈ cs, containsA metasF c = true) ∧
    (∀ k cs, lookupA tocF k = some cs → k ≠ "root" → k ≠ "hidden" →
      containsA metasF k = true ∧ cs ≠ []) ∧
    (∀ id m, lookupA metasF id = some m → isContainerType m.type = false →
      id ≠ "root" → id ≠ "hidden" → 1 ≤ childOccurrences tocF id) := by
  cases hfix : fixMetaPass now utf metas₀ dataDirs₀ with
  | error e =>
    rw [runReconcile] at hrun
    rw [hfix] at hrun
    exact absurd hrun (by simp)
  | ok st₁ =>
    simp only [runReconcile, hfix] at hrun
    injection hrun with h1
    injection h1 with hM hT
    subst hM
    subst hT
    have hpr := tocPrune_insAB st₁.1 toc₀ hnd
    have hins : insAB (insertPass now st₁.1 (tocPrune st₁.1 toc₀).toc
        (tocPrune st₁.1 toc₀).referred (tocPrune st₁.1 toc₀).tmap) :=
      insertPass_insAB now st₁.1 _ _ _ ⟨hpr.1, hpr.2⟩
    have hkeys := faviconPass_keysA resolve
      (insertPass now st₁.1 (tocPrune st₁.1 toc₀).toc
        (tocPrune st₁.1 toc₀).referred (tocPrune st₁.1 toc₀).tmap).metas
    have hcont := fun x => containsA_congr_keysA _ _ hkeys x
    refine ⟨?_, ?_, ?_⟩
    · intro k cs hw c hc
      rw [hcont c]
      exact hins.1 k cs hw c hc
    · intro k cs hw hkr hkh
      obtain ⟨h1, h2⟩ := hins.2 k cs hw hkr hkh
      exact ⟨by rw [hcont k]; exact h1, h2⟩
    · intro id m hmF htype hkr hkh
      have htm := faviconPass_typeMap resolve
        (insertPass now st₁.1 (tocPrune st₁.1 toc₀).toc
          (tocPrune st₁.1 toc₀).referred (tocPrune st₁.1 toc₀).tmap).metas id
      rw [hmF] at htm
      cases hmi : lookupA (insertPass now st₁.1 (tocPrune st₁.1 toc₀).toc
          (tocPrune st₁.1 toc₀).referred (tocPrune st₁.1 toc₀).tmap).metas id with
      | none =>
        rw [hmi] at htm
        exact absurd htm (by simp)
      | some m2 =>
        rw [hmi] at htm
        simp only [Option.map_some'] at htm
        injection htm with htm
        rcases insertPass_newKeys now st₁.1 (tocPrune st₁.1 toc₀).toc
            (tocPrune st₁.1 toc₀).referred (tocPrune st₁.1 toc₀).tmap id m2 hmi
          with hkm | hfd
        · by_cases href : id ∈ (tocPrune st₁.1 toc₀).referred
          · obtain ⟨k, cs, hl, hcm⟩ := tocPrune_referred st₁.1 toc₀ hnd id href
            obtain ⟨ext, hext⟩ := insertPass_tocLE now st₁.1 (tocPrune st₁.1 toc₀).toc
              (tocPrune st₁.1 toc₀).referred (tocPrune st₁.1 toc₀).tmap k cs hl
            exact childOccurrences_pos _ k id _ hext
              (List.mem_append.2 (Or.inl hcm))
          · obtain ⟨k, cs, hl, hcm⟩ := insertPass_coverage now st₁.1
              (tocPrune st₁.1 toc₀).toc (tocPrune st₁.1 toc₀).referred
              (tocPrune st₁.1 toc₀).tmap id hkm href hkr hkh
            exact childOccurrences_pos _ k id cs hl hcm
        · have hft : m.type = some "folder" := htm.trans hfd
          rw [hft] at htype
          exact absurd htype (by decide)

/-- C1 counterexample input: a single surviving page entry referenced
twice by the root child list. -/
def c1Meta : MetaRec :=
  { index := some "A/index.html", title := some "A", modify := some "1",
    create := some "1", icon := some "", comment := some "", source := some "s" }

/-- The entry after fixup: the empty-string `type` fallback has run and
the transient fields stay cleared. -/
def c1FinalMeta : MetaRec :=
  { index := some "A/index.html", title := some "A", type := some "",
    create := some "1", modify := some "1", source := some "s",
    icon := some "", comment := some "" }

/-- C1 counterexample: the pruning loop filters but never deduplicates a
child list, so a surviving non-container entry can appear twice as a TOC
child after a full run — refuting the claimed “exactly once”. -/
theorem toc_child_appears_twice :
    runReconcile 0 (fun s => s) (fun _ => none) [("A", c1Meta)]
      [("A", ["A/index.html"])] [("root", ["A", "A"])] =
      some ([("A", c1FinalMeta)], [("root", ["A", "A"])]) ∧
    isContainerType c1FinalMeta.type = false ∧
    childOccurrences [("root", ["A", "A"])] "A" = 2 := by
  refine ⟨?_, ?_, ?_⟩ <;> decide

theorem toc_integrity_witness :
    ((keysA [("root", (["A"] : List String))]).Nodup ∧
     runReconcile 0 (fun s => s) (fun _ => none) [("A", c1Meta)]
       [("A", ["A/index.html"])] [("root", ["A"])] =
       some ([("A", c1FinalMeta)], [("root", ["A"])])) ∧
    ((∀ k cs, lookupA [("root", (["A"] : List String))] k = some cs →
        ∀ c ∈ cs, containsA [("A", c1FinalMeta)] c = true) ∧
     (∀ k cs, lookupA [("root", (["A"] : List String))] k = some cs →
        k ≠ "root" → k ≠ "hidden" →
        containsA [("A", c1FinalMeta)] k = true ∧ cs ≠ []) ∧
     (∀ id m, lookupA [("A", c1FinalMeta)] id = some m →
        isContainerType m.type = false → id ≠ "root" → id ≠ "hidden" →
        1 ≤ childOccurrences [("root", (["A"] : List String))] id)) :=
  ⟨⟨by decide, by decide⟩,
    toc_integrity 0 (fun s => s) (fun _ => none) [("A", c1Meta)]
      [("A", ["A/index.html"])] [("root", ["A"])] [("A", c1FinalMeta)]
      [("root", ["A"])] (by decide) (by decide)⟩

end WSB
